import Mathlib

/-!
# Tuple codec of `src/backend/access/common/heaptuple.c` and `indextuple.c`

A shallow embedding of the tuple (row) on-disk codec: attribute descriptors,
packed-size computation (`ComputeDataSize`), serialization (`DataFill`),
the null bitmap, the two tuple builders (`heap_formtuple`,
`index_formtuple`) and the two offset-caching accessors (`nocachegetattr`,
`nocache_index_getattr`), together with `heap_attisnull`, `heap_copytuple`
and `heap_modifytuple`.

Memory is modelled as `List Nat` (one entry per byte); a C pointer into the
tuple's data region becomes a byte offset into the tuple's `data` list.
`elog(ERROR, ...)` and undefined behaviour (out-of-bounds reads,
dereferencing a non-pointer `Datum`) are modelled as `Option.none`.
The machine is the 32-bit reference platform of the source:
`sizeof(short) = 2`, `sizeof(int32) = 4`, `sizeof(long) = 4` (so
`LONGALIGN` aligns to 4), `sizeof(double) = 8`, little-endian stores.
-/

namespace PgTuple

/-! ## Alignment macros (`c.h`): round a length up to a byte boundary. -/

/-- Round `n` up to the next multiple of `a` (for `a > 0`). -/
def alignTo (a n : Nat) : Nat := ((n + a - 1) / a) * a

/-- `SHORTALIGN`: 2-byte boundary. -/
def SHORTALIGN (n : Nat) : Nat := alignTo 2 n

/-- `INTALIGN`: 4-byte boundary. -/
def INTALIGN (n : Nat) : Nat := alignTo 4 n

/-- `LONGALIGN`: `sizeof(long) = 4` on the reference platform. -/
def LONGALIGN (n : Nat) : Nat := alignTo 4 n

/-- `DOUBLEALIGN`: 8-byte boundary. -/
def DOUBLEALIGN (n : Nat) : Nat := alignTo 8 n

/-- The alignment macros applied to a (possibly negative) C `long` or `int`
offset, as in the accessors' walking loops: `(n + (a-1)) & ~(a-1)` on a
two's-complement machine, i.e. flooring division after adding `a - 1`. -/
def alignI (a : Nat) (n : Int) : Int := ((n + (a : Int) - 1).fdiv a) * a

/-! ## Bytes and scalars -/

/-- Little-endian value of a byte list (each entry taken mod 256), as the
reference platform reads a multi-byte scalar from memory. -/
def leNat : List Nat → Nat
  | [] => 0
  | b :: rest => b % 256 + 256 * leNat rest

/-- The `len` low-order bytes of a scalar, little-endian, as the reference
platform stores a `char` / `short` / `int32`. -/
def natToBytes : Nat → Nat → List Nat
  | 0, _ => []
  | len + 1, v => v % 256 :: natToBytes len (v / 256)

/-- `VARSIZE`: a variable-length value's total byte length, read from its own
leading 4-byte length word. -/
def VARSIZE (bs : List Nat) : Nat := leNat (bs.take 4)

/-- Zero padding taking a cursor at `off` up to an `a`-byte boundary
(the bytes a serializer skips were `MemSet` to zero by the builders). -/
def padTo (a off : Nat) : List Nat := List.replicate (alignTo a off - off) 0

/-! ## Attribute descriptors and datums -/

/-- One column of a descriptor table (`AttributeTupleForm`): length class
(`attlen`, −1 = variable-length), alignment class (`attalign`, only
`'d'` versus not-`'d'` is ever inspected), and the by-value flag.
The mutable `attcacheoff` field is carried separately as a `List Int`
side table, threaded through the accessors. -/
structure Attr where
  attlen : Int
  attalign : Char
  attbyval : Bool
deriving DecidableEq, Repr

/-- Placeholder descriptor for out-of-range accesses. -/
def dummyAttr : Attr := { attlen := 0, attalign := 'c', attbyval := false }

/-- A `Datum`: either an inline machine-word scalar (by-value attributes) or
a pointer to an independently allocated byte region (by-reference fixed
or variable-length attributes). -/
inductive Datum where
  | imm (w : Nat)
  | byref (bs : List Nat)
deriving DecidableEq, Repr

/-- Placeholder datum for out-of-range accesses. -/
def dummyDatum : Datum := Datum.imm 0

/-! ## `ComputeDataSize` (heaptuple.c lines 61–117)

Walk the attributes in order, skip nulls, and accumulate the aligned packed
length.  The loop `for (i = 0; ...; i++)` becomes a fuel-indexed recursion
(`fuel` = remaining trip count), faithful to the C switch per attribute. -/

def computeDataSizeLoop (desc : List Attr) (vals : List Datum) (nulls : List Char) :
    Nat → Nat → Nat → Option Nat
  | _, 0, len => some len
  | i, fuel + 1, len =>
    let a := desc.getD i dummyAttr
    if nulls.getD i ' ' ≠ ' ' then
      computeDataSizeLoop desc vals nulls (i + 1) fuel len
    else if a.attlen = -1 then
      match vals.getD i dummyDatum with
      | Datum.byref bs =>
          computeDataSizeLoop desc vals nulls (i + 1) fuel
            ((if a.attalign = 'd' then DOUBLEALIGN len else INTALIGN len) + VARSIZE bs)
      | Datum.imm _ => none
    else if a.attlen = 1 then
      computeDataSizeLoop desc vals nulls (i + 1) fuel (len + 1)
    else if a.attlen = 2 then
      computeDataSizeLoop desc vals nulls (i + 1) fuel (SHORTALIGN (len + 2))
    else if a.attlen = 4 then
      computeDataSizeLoop desc vals nulls (i + 1) fuel (INTALIGN (len + 4))
    else if a.attlen < 4 then none
    else
      computeDataSizeLoop desc vals nulls (i + 1) fuel
        ((if a.attalign = 'd' then DOUBLEALIGN len else LONGALIGN len) + a.attlen.toNat)

/-- `ComputeDataSize(tupleDesc, value, nulls)`. -/
def ComputeDataSize (desc : List Attr) (vals : List Datum) (nulls : List Char) : Option Nat :=
  computeDataSizeLoop desc vals nulls 0 desc.length 0

/-! ## `DataFill` (heaptuple.c lines 123–226)

Writes one attribute's padding and payload at the current end of the data
region (`data.length` is the running cursor, the region starts maxaligned),
and maintains the null bitmap byte-by-byte exactly as the C does with
`bitP`/`bitmask` (`CSIGNBIT = 0x80`, low-order bit first within a byte). -/

/-- The data bytes one non-null attribute appends (switch body of `DataFill`),
together with the `t_infomask` bits it contributes (`HEAP_HASVARLENA = 0x02`). -/
def fillOne (a : Attr) (v : Datum) (data : List Nat) : Option (List Nat × Nat) :=
  if a.attlen = -1 then
    match v with
    | Datum.byref bs =>
        some (data ++ padTo (if a.attalign = 'd' then 8 else 4) data.length ++
          bs.take (VARSIZE bs), 2)
    | Datum.imm _ => none
  else if a.attlen = 1 then
    match a.attbyval, v with
    | true, Datum.imm w => some (data ++ [w % 256], 0)
    | false, Datum.byref bs =>
        if 1 ≤ bs.length then some (data ++ bs.take 1, 0) else none
    | _, _ => none
  else if a.attlen = 2 then
    match a.attbyval, v with
    | true, Datum.imm w => some (data ++ padTo 2 data.length ++ natToBytes 2 w, 0)
    | false, Datum.byref bs =>
        if 2 ≤ bs.length then some (data ++ padTo 2 data.length ++ bs.take 2, 0) else none
    | _, _ => none
  else if a.attlen = 4 then
    match a.attbyval, v with
    | true, Datum.imm w => some (data ++ padTo 4 data.length ++ natToBytes 4 w, 0)
    | false, Datum.byref bs =>
        if 4 ≤ bs.length then some (data ++ padTo 4 data.length ++ bs.take 4, 0) else none
    | _, _ => none
  else if a.attlen < 4 then none
  else
    match v with
    | Datum.byref bs =>
        if a.attlen.toNat ≤ bs.length then
          some (data ++ padTo (if a.attalign = 'd' then 8 else 4) data.length ++
            bs.take a.attlen.toNat, 0)
        else none
    | Datum.imm _ => none

/-- One `DataFill` loop iteration's bitmap bookkeeping: advance
`bitmask` (shift left, or step `bitP` to a fresh zero byte when the mask was
`CSIGNBIT`), then either record the null in the infomask or set the bit. -/
def bitStep (bits : List Nat) (bitmask : Nat) (isnull : Bool) :
    List Nat × Nat :=
  if bitmask ≠ 128 then
    if isnull then (bits, bitmask * 2)
    else (bits.dropLast ++ [bits.getLastD 0 ||| bitmask * 2], bitmask * 2)
  else
    if isnull then (bits ++ [0], 1)
    else ((bits ++ [0]).dropLast ++ [(bits ++ [0]).getLastD 0 ||| 1], 1)

/-- `DataFill` body over attributes `i, i+1, ...` (`fuel` = remaining trip
count).  State: data region so far, bitmap bytes so far, current `bitmask`,
accumulated `*infomask`.  `hasBit` is `bit != NULL`. -/
def dataFillLoop (hasBit : Bool) (desc : List Attr) (vals : List Datum) (nulls : List Char) :
    Nat → Nat → List Nat × List Nat × Nat × Nat → Option (List Nat × List Nat × Nat × Nat)
  | _, 0, st => some st
  | i, fuel + 1, st =>
    let a := desc.getD i dummyAttr
    let data := st.1
    let bits := st.2.1
    let bitmask := st.2.2.1
    let mask := st.2.2.2
    if hasBit then
      let bs := bitStep bits bitmask (nulls.getD i ' ' = 'n')
      if nulls.getD i ' ' = 'n' then
        dataFillLoop hasBit desc vals nulls (i + 1) fuel (data, bs.1, bs.2, mask ||| 1)
      else
        (fillOne a (vals.getD i dummyDatum) data).bind fun dm =>
          dataFillLoop hasBit desc vals nulls (i + 1) fuel (dm.1, bs.1, bs.2, mask ||| dm.2)
    else
      (fillOne a (vals.getD i dummyDatum) data).bind fun dm =>
        dataFillLoop hasBit desc vals nulls (i + 1) fuel (dm.1, bits, bitmask, mask ||| dm.2)

/-- `DataFill(data, tupleDesc, value, nulls, infomask, bit)`: returns the
packed data region (starting from an empty, maxaligned region), the null
bitmap bytes and the accumulated infomask.  `HEAP_HASNULL = 0x01`,
`HEAP_HASVARLENA = 0x02`. -/
def DataFill (hasBit : Bool) (desc : List Attr) (vals : List Datum) (nulls : List Char) :
    Option (List Nat × List Nat × Nat) :=
  (dataFillLoop hasBit desc vals nulls 0 desc.length ([], [], 128, 0)).map fun st =>
    (st.1, st.2.1, st.2.2.2)

/-! ## Heap tuples -/

/-- `HEAP_HASNULL` (`htup.h` is not in the sources; `0x01` is the standard
value, and `indextuple.c` line 91 pins `HEAP_HASVARLENA` to `0x02`). -/
def HEAP_HASNULL : Nat := 1

/-- `HEAP_HASVARLENA = 0x02`, hard-coded in `index_formtuple`. -/
def HEAP_HASVARLENA : Nat := 2

/-- `HEAP_XMAX_INVALID`. Modelled from the spec: a whole-tuple flag bit
disjoint from the low codec bits (`htup.h` is not in the sources). -/
def HEAP_XMAX_INVALID : Nat := 2048

/-- `MaxHeapAttributeNumber`. Modelled from the spec: the row format's fixed
attribute-count ceiling (its header is not in the sources). -/
def MaxHeapAttributeNumber : Nat := 1600

/-- `sizeof(HeapTupleData) - sizeof(tuple->t_bits)`: the fixed header length
in front of the null bitmap. Modelled from the spec: `htup.h` is not in
the sources; only maxalignment of the resulting `t_hoff` matters. -/
def heapHeaderBaseLen : Nat := 40

/-- `BITMAPLEN(natts)`: bytes of null bitmap, one bit per attribute.
Modelled from the spec: ceil(attribute_count / 8). -/
def BITMAPLEN (natts : Nat) : Nat := (natts + 7) / 8

/-- A built row tuple.  The single C buffer is split into its header fields,
the null bitmap bytes (`t_bits`, empty when no attribute is null) and the
packed data region starting at `t_hoff` (`data`); the fields after `t_len`
up to `t_natts` are the non-positional system metadata the builders zero
(`MemSet`) and `heap_modifytuple` copies forward. -/
structure HeapTuple where
  t_len : Nat
  t_ctid : Nat
  t_oid : Nat
  t_cmin : Nat
  t_cmax : Nat
  t_xmin : Nat
  t_xmax : Nat
  t_natts : Nat
  t_infomask : Nat
  t_hoff : Nat
  t_bits : List Nat
  data : List Nat
deriving DecidableEq, Repr

/-- `HeapTupleNoNulls(tup)`: `!(tup->t_infomask & HEAP_HASNULL)`. -/
def HeapTupleNoNulls (tup : HeapTuple) : Bool := tup.t_infomask &&& HEAP_HASNULL = 0

/-- `HeapTupleAllFixed(tup)`: `!(tup->t_infomask & HEAP_HASVARLENA)`. -/
def HeapTupleAllFixed (tup : HeapTuple) : Bool := tup.t_infomask &&& HEAP_HASVARLENA = 0

/-- `att_isnull(ATT, BITS)` (`htup.h`, standard definition, consistent with
`DataFill`'s low-order-bit-first bitmap): bit `i` clear means null. -/
def att_isnull (i : Nat) (bits : List Nat) : Bool :=
  bits.getD (i / 8) 0 &&& (1 <<< (i % 8)) = 0

/-- `heap_formtuple(tupleDescriptor, value, nulls)` (lines 770–825): size the
buffer with `ComputeDataSize`, zero it, fill it with `DataFill`, stamp the
metadata, and set `HEAP_XMAX_INVALID`. -/
def heap_formtuple (desc : List Attr) (vals : List Datum) (nulls : List Char) :
    Option HeapTuple :=
  let natts := desc.length
  let hasnull := (List.range natts).any fun i => nulls.getD i ' ' ≠ ' '
  if natts > MaxHeapAttributeNumber then none
  else
    let hoff := DOUBLEALIGN (heapHeaderBaseLen + if hasnull then BITMAPLEN natts else 0)
    (ComputeDataSize desc vals nulls).bind fun dsize =>
      (DataFill hasnull desc vals nulls).map fun dbm =>
        { t_len := hoff + dsize, t_ctid := 0, t_oid := 0, t_cmin := 0, t_cmax := 0,
          t_xmin := 0, t_xmax := 0, t_natts := natts,
          t_infomask := dbm.2.2 ||| HEAP_XMAX_INVALID, t_hoff := hoff,
          t_bits := dbm.2.1, data := dbm.1 }

/-! ## `fetchatt` and bounded reads

`fetchatt` (`tupmacs.h`, not in the sources). Modelled from the spec
(§4.4 "decode"): a by-value 1/2/4-byte attribute is reinterpreted as an
inline scalar from the bytes at the offset; any other attribute is returned
by reference to the bytes at the (aligned) offset, a variable-length one
bounded by its own leading length word.  A read past the end of the tuple
buffer is undefined behaviour, modelled as `none`. -/

def fetchatt (a : Attr) (buf : List Nat) (off : Nat) : Option Datum :=
  if a.attbyval ∧ (a.attlen = 1 ∨ a.attlen = 2 ∨ a.attlen = 4) then
    if off + a.attlen.toNat ≤ buf.length then
      some (Datum.imm (leNat ((buf.drop off).take a.attlen.toNat)))
    else none
  else if a.attlen = -1 then
    if off + VARSIZE (buf.drop off) ≤ buf.length then
      some (Datum.byref ((buf.drop off).take (VARSIZE (buf.drop off))))
    else none
  else
    if off + a.attlen.toNat ≤ buf.length then
      some (Datum.byref ((buf.drop off).take a.attlen.toNat))
    else none

/-- `fetchatt` at a C `long` offset: a negative offset is out of bounds. -/
def offFetch (a : Attr) (buf : List Nat) (off : Int) : Option Datum :=
  if 0 ≤ off then fetchatt a buf off.toNat else none

/-- `VARSIZE(tp + off)` during a walk: reads the 4-byte length word at `off`
in the data region; out of bounds is undefined behaviour (`none`). -/
def varsizeAt (data : List Nat) (off : Int) : Option Int :=
  if 0 ≤ off ∧ off.toNat + 4 ≤ data.length then
    some (VARSIZE (data.drop off.toNat) : Int)
  else none

/-! ## `nocachegetattr` (heaptuple.c lines 395–688) -/

/-- The per-attribute alignment switch shared verbatim by the cache-fill loop
(lines 542–568), the careful walk's first switch (lines 603–627), the final
switch (lines 662–685) and their `nocache_index_getattr` counterparts
(lines 306–329 and 404–427): align `off` for attribute `a`, `elog` on an
unsupported length class. -/
def nocacheAlignSwitch (a : Attr) (off : Int) : Option Int :=
  if a.attlen = -1 then
    some (if a.attalign = 'd' then alignI 8 off else alignI 4 off)
  else if a.attlen = 1 then some off
  else if a.attlen = 2 then some (alignI 2 off)
  else if a.attlen = 4 then some (alignI 4 off)
  else if a.attlen < 4 then none
  else some (if a.attalign = 'd' then alignI 8 off else alignI 4 off)

/-- `while (att[j]->attcacheoff > 0) j++` at line 535: first index from `j`
whose cached offset is unset; `fuel` bounds the scan (the callers reach this
code only when `att[an]->attcacheoff <= 0`, so `fuel = an` suffices). -/
def firstUncached (cache : List Int) : Nat → Nat → Nat
  | 0, j => j
  | fuel + 1, j => if cache.getD j 0 > 0 then firstUncached cache fuel (j + 1) else j

/-- Cache-filling loop of the no-nulls fast path (lines 540–572): for
`j, ..., an` align `off` for attribute `j`, record the aligned offset in the
cache, advance by `attlen`. -/
def heapFastLoop (desc : List Attr) :
    Nat → Nat → Int → List Int → Option (List Int)
  | _, 0, _, cache => some cache
  | j, fuel + 1, off, cache =>
    let a := desc.getD j dummyAttr
    (nocacheAlignSwitch a off).bind fun off1 =>
      heapFastLoop desc (j + 1) fuel (off1 + a.attlen) (cache.set j off1)

/-- The no-nulls fast path (lines 524–576): seed `attcacheoff[0] = 0`, scan
to the first uncached attribute, resume the running offset from its
predecessor's cached offset, fill the cache up to `an`, fetch there. -/
def heapFastPath (tup : HeapTuple) (desc : List Attr) (an : Nat) (cache : List Int) :
    Option (Datum × List Int) :=
  let cache0 := cache.set 0 0
  let j := firstUncached cache0 an 1
  let prev := desc.getD (j - 1) dummyAttr
  let off0 : Int := cache0.getD (j - 1) 0 + prev.attlen
  (heapFastLoop desc j (an + 1 - j) off0 cache0).bind fun cache1 =>
    (offFetch (desc.getD an dummyAttr) tup.data (cache1.getD an 0)).map fun d => (d, cache1)

/-- The careful walk's advancing switch (lines 642–660): move `off` past
attribute `a` (a varlena by its own length word, dropping cache trust). -/
def heapSlowAdv (a : Attr) (data : List Nat) (off2 : Int) (uc : Bool)
    (cache2 : List Int) : Option (Int × Bool × List Int) :=
  if a.attlen = 1 then some (off2 + 1, uc, cache2)
  else if a.attlen = 2 then some (off2 + 2, uc, cache2)
  else if a.attlen = 4 then some (off2 + 4, uc, cache2)
  else if a.attlen = -1 then
    (varsizeAt data off2).map fun sz => (off2 + sz, false, cache2)
  else some (off2 + a.attlen, uc, cache2)

/-- One iteration of the careful walk (lines 593–661): skip a null
(dropping cache trust), align for attribute `i`, prefer a trusted cached
offset (a cached varlena also drops trust), record the aligned offset when
not cached but trusted, then advance past the attribute. -/
def heapSlowStep (noNulls : Bool) (bits : List Nat) (desc : List Attr) (data : List Nat)
    (i : Nat) (st : Int × Bool × List Int) : Option (Int × Bool × List Int) :=
  if ¬ noNulls ∧ att_isnull i bits then some (st.1, false, st.2.2)
  else
    (nocacheAlignSwitch (desc.getD i dummyAttr) st.1).bind fun off1 =>
      if st.2.1 ∧ st.2.2.getD i 0 > 0 then
        heapSlowAdv (desc.getD i dummyAttr) data (st.2.2.getD i 0)
          (if (desc.getD i dummyAttr).attlen = -1 then false else st.2.1) st.2.2
      else
        heapSlowAdv (desc.getD i dummyAttr) data off1 st.2.1
          (if st.2.1 then st.2.2.set i off1 else st.2.2)

/-- The careful walk over attributes `i, ..., i + fuel - 1`. -/
def heapSlowLoop (noNulls : Bool) (bits : List Nat) (desc : List Attr) (data : List Nat) :
    Nat → Nat → Int × Bool × List Int → Option (Int × Bool × List Int)
  | _, 0, st => some st
  | i, fuel + 1, st =>
    (heapSlowStep noNulls bits desc data i st).bind fun st1 =>
      heapSlowLoop noNulls bits desc data (i + 1) fuel st1

/-- The slow branch of `nocachegetattr` (lines 577–687): walk attributes
`0..an-1` carefully, apply the final alignment switch for `an`, fetch. -/
def heapSlowPath (tup : HeapTuple) (desc : List Attr) (an : Nat) (cache : List Int) :
    Option (Datum × List Int) :=
  (heapSlowLoop (HeapTupleNoNulls tup) tup.t_bits desc tup.data 0 an (0, true, cache)).bind
    fun st =>
      (nocacheAlignSwitch (desc.getD an dummyAttr) st.1).bind fun offF =>
        (offFetch (desc.getD an dummyAttr) tup.data offF).map fun d => (d, st.2.2)

/-- `nocachegetattr(tup, attnum, tupleDesc, isnull)`: called with a 1-based
`attnum` on a known non-null attribute.  Returns the datum and the updated
cached-offset side table. -/
def nocachegetattr (tup : HeapTuple) (attnum : Nat) (desc : List Attr) (cache : List Int) :
    Option (Datum × List Int) :=
  let an := attnum - 1
  let slow1 :=
    if HeapTupleNoNulls tup then false
    else (List.range an).any fun i => att_isnull i tup.t_bits
  if slow1 then heapSlowPath tup desc an cache
  else if cache.getD an 0 > 0 then
    (offFetch (desc.getD an dummyAttr) tup.data (cache.getD an 0)).map fun d => (d, cache)
  else if an = 0 then
    (fetchatt (desc.getD 0 dummyAttr) tup.data 0).map fun d => (d, cache)
  else
    let slow2 :=
      if ¬ HeapTupleAllFixed tup then
        (List.range an).any fun j => (desc.getD j dummyAttr).attlen < 1
      else false
    if slow2 then heapSlowPath tup desc an cache
    else heapFastPath tup desc an cache

/-- `fastgetattr(tup, attnum, tupleDesc, isnull)` (`heapam.h`; its branches
are spelled out by the `IN_MACRO` blocks of `nocachegetattr`): answer a
null directly from the bitmap, take the cached-offset or first-attribute
shortcut on a no-nulls tuple, otherwise call `nocachegetattr`.  Result:
((datum when not null, is-null flag), updated cache side table). -/
def fastgetattr (tup : HeapTuple) (attnum : Nat) (desc : List Attr) (cache : List Int) :
    Option ((Option Datum × Bool) × List Int) :=
  if attnum = 0 then none
  else
    let an := attnum - 1
    if HeapTupleNoNulls tup then
      if cache.getD an 0 > 0 then
        (offFetch (desc.getD an dummyAttr) tup.data (cache.getD an 0)).map fun d =>
          ((some d, false), cache)
      else if an = 0 then
        (fetchatt (desc.getD 0 dummyAttr) tup.data 0).map fun d => ((some d, false), cache)
      else
        (nocachegetattr tup attnum desc cache).map fun r => ((some r.1, false), r.2)
    else
      if att_isnull an tup.t_bits then some ((none, true), cache)
      else (nocachegetattr tup attnum desc cache).map fun r => ((some r.1, false), r.2)

/-! ## Index tuples (`indextuple.c`) -/

/-- `INDEX_NULL_MASK`.  `index_formtuple` checks `size & 0xE000` before
or-ing `size` into `t_info`, so the flag bits live in the top three bits;
the null flag is the top bit (`itup.h` is not in the sources). -/
def INDEX_NULL_MASK : Nat := 32768

/-- `INDEX_VAR_MASK`, the "has variable-length attribute" flag bit. -/
def INDEX_VAR_MASK : Nat := 16384

/-- `MaxIndexAttributeNumber`. Modelled from the spec: the index format's
fixed attribute-count ceiling (`itup.h` is not in the sources). -/
def MaxIndexAttributeNumber : Nat := 7

/-- `sizeof(IndexTupleData)`: item pointer plus the `t_info` word. -/
def indexTupleDataSize : Nat := 8

/-- `sizeof(IndexAttributeBitMapData)`: the fixed index null-bitmap area. -/
def indexBitmapDataSize : Nat := 4

/-- `IndexInfoFindDataOffset(infomask)` (`itup.h`, not in the sources).
Modelled from the spec: the header offset computed from the info field —
past the fixed header, plus the bitmap area when the null flag is set,
maxaligned. -/
def IndexInfoFindDataOffset (infomask : Nat) : Nat :=
  if infomask &&& INDEX_NULL_MASK = 0 then DOUBLEALIGN indexTupleDataSize
  else DOUBLEALIGN (indexTupleDataSize + indexBitmapDataSize)

/-- A built index tuple: the info word, the null bitmap bytes (at
`tp + sizeof(*tup)`, empty when no attribute is null) and the data region
starting at the header offset, including the trailing `MemSet` zero bytes up
to the maxaligned total size. -/
structure IndexTuple where
  t_info : Nat
  bitmap : List Nat
  data : List Nat
deriving DecidableEq, Repr

/-- `IndexTupleNoNulls(tup)`. -/
def IndexTupleNoNulls (tup : IndexTuple) : Bool := tup.t_info &&& INDEX_NULL_MASK = 0

/-- `IndexTupleAllFixed(tup)`. -/
def IndexTupleAllFixed (tup : IndexTuple) : Bool := tup.t_info &&& INDEX_VAR_MASK = 0

/-- `index_formtuple(tupleDescriptor, value, null)` (lines 38–112): ceiling
check, null scan, size and fill, `0xE000` capacity check, `t_info` holds
flags plus total size. -/
def index_formtuple (desc : List Attr) (vals : List Datum) (nulls : List Char) :
    Option IndexTuple :=
  let natts := desc.length
  if natts > MaxIndexAttributeNumber then none
  else
    let hasnull := (List.range natts).any fun i => nulls.getD i ' ' ≠ ' '
    let infomask0 := if hasnull then INDEX_NULL_MASK else 0
    let hoff := IndexInfoFindDataOffset infomask0
    (ComputeDataSize desc vals nulls).bind fun dsize =>
      (DataFill hasnull desc vals nulls).bind fun dbm =>
        let size := DOUBLEALIGN (hoff + dsize)
        let infomask1 :=
          infomask0 ||| (if dbm.2.2 &&& 2 ≠ 0 then INDEX_VAR_MASK else 0)
        if size &&& 57344 ≠ 0 then none
        else
          some { t_info := infomask1 ||| size, bitmap := dbm.2.1,
                 data := dbm.1 ++ List.replicate (size - (hoff + dsize)) 0 }

/-! ## `nocache_index_getattr` (indextuple.c lines 133–431) -/

/-- The preceding-null byte scan (lines 222–252): `byte = attnum >> 3`,
`finalbit = attnum & 0x07`; any earlier byte with a zero bit sets `slow`;
in the final byte the code tests `(~n) & ((finalbit << 1) - 1)` — with the
`char n` sign-extended, so for `finalbit = 0` the mask `-1` keeps all of
`~n`.  `(bp[i] ^^^ 255)` is the low 8 bits of `~n`. -/
def idxPrecedingNullScan (an : Nat) (bp : List Nat) : Bool :=
  let byte := an / 8
  let finalbit := an % 8
  (List.range (byte + 1)).any fun i =>
    if i < byte then bp.getD i 0 ^^^ 255 ≠ 0
    else
      if finalbit = 0 then bp.getD i 0 ^^^ 255 ≠ 0
      else (bp.getD i 0 ^^^ 255) &&& (finalbit <<< 1) - 1 ≠ 0

/-- Cache-filling loop of the index no-nulls fast path (lines 298–333):
identical walking arithmetic to `heapFastLoop` (the `default:` branch of
its switch writes the same error condition as `attlen > 4 ? align : elog`). -/
def idxFastLoop (desc : List Attr) :
    Nat → Nat → Int → List Int → Option (List Int)
  | _, 0, _, cache => some cache
  | j, fuel + 1, off, cache =>
    let a := desc.getD j dummyAttr
    (nocacheAlignSwitch a off).bind fun off1 =>
      idxFastLoop desc (j + 1) fuel (off1 + a.attlen) (cache.set j off1)

/-- Index no-nulls fast path (lines 281–337), mirroring `heapFastPath`. -/
def idxFastPath (tup : IndexTuple) (desc : List Attr) (an : Nat) (cache : List Int) :
    Option (Datum × List Int) :=
  let cache0 := cache.set 0 0
  let j := firstUncached cache0 an 1
  let prev := desc.getD (j - 1) dummyAttr
  let off0 : Int := cache0.getD (j - 1) 0 + prev.attlen
  (idxFastLoop desc j (an + 1 - j) off0 cache0).bind fun cache1 =>
    (offFetch (desc.getD an dummyAttr) tup.data (cache1.getD an 0)).map fun d => (d, cache1)

/-- One iteration of the index careful walk (lines 348–398).  Unlike the
heap walk it consults the cache before any alignment, `continue`s on a
fixed-length cache hit without advancing past the attribute, stores the
*unaligned* running offset into the cache, and only then aligns-and-advances
in a single switch. -/
def idxSlowStep (noNulls : Bool) (bits : List Nat) (desc : List Attr) (data : List Nat)
    (i : Nat) (st : Int × Bool × List Int) : Option (Int × Bool × List Int) :=
  let off := st.1
  let usecache := st.2.1
  let cache := st.2.2
  let a := desc.getD i dummyAttr
  let advance : Int → Bool → List Int → Option (Int × Bool × List Int) :=
    fun off1 uc cache1 =>
      if a.attlen = 1 then some (off1 + 1, uc, cache1)
      else if a.attlen = 2 then some (alignI 2 off1 + 2, uc, cache1)
      else if a.attlen = 4 then some (alignI 4 off1 + 4, uc, cache1)
      else if a.attlen = -1 then
        let offA := if a.attalign = 'd' then alignI 8 off1 else alignI 4 off1
        (varsizeAt data offA).map fun sz => (offA + sz, false, cache1)
      else if a.attlen > 4 then
        some ((if a.attalign = 'd' then alignI 8 off1 else alignI 4 off1) + a.attlen,
          uc, cache1)
      else none
  if ¬ noNulls ∧ att_isnull i bits then some (off, false, cache)
  else if usecache ∧ cache.getD i 0 > 0 then
    if a.attlen = -1 then advance (cache.getD i 0) false cache
    else some (cache.getD i 0, usecache, cache)
  else
    let cache2 := if usecache then cache.set i off else cache
    advance off usecache cache2

/-- The index careful walk over attributes `i, ..., i + fuel - 1`. -/
def idxSlowLoop (noNulls : Bool) (bits : List Nat) (desc : List Attr) (data : List Nat) :
    Nat → Nat → Int × Bool × List Int → Option (Int × Bool × List Int)
  | _, 0, st => some st
  | i, fuel + 1, st =>
    (idxSlowStep noNulls bits desc data i st).bind fun st1 =>
      idxSlowLoop noNulls bits desc data (i + 1) fuel st1

/-- The slow branch of `nocache_index_getattr` (lines 338–430): careful walk
then the final alignment switch (lines 404–427) and the fetch. -/
def idxSlowPath (tup : IndexTuple) (desc : List Attr) (an : Nat) (cache : List Int) :
    Option (Datum × List Int) :=
  (idxSlowLoop (IndexTupleNoNulls tup) tup.bitmap desc tup.data 0 an (0, true, cache)).bind
    fun st =>
      (nocacheAlignSwitch (desc.getD an dummyAttr) st.1).bind fun offF =>
        (offFetch (desc.getD an dummyAttr) tup.data offF).map fun d => (d, st.2.2)

/-- `nocache_index_getattr(tup, attnum, tupleDesc, isnull)`.  Differences
from `nocachegetattr`: the preceding-null check is the byte scan above, and
the no-nulls section has no separate first-attribute shortcut. -/
def nocache_index_getattr (tup : IndexTuple) (attnum : Nat) (desc : List Attr)
    (cache : List Int) : Option (Datum × List Int) :=
  let an := attnum - 1
  let slow1 :=
    if IndexTupleNoNulls tup then false
    else idxPrecedingNullScan an tup.bitmap
  if slow1 then idxSlowPath tup desc an cache
  else if cache.getD an 0 > 0 then
    (offFetch (desc.getD an dummyAttr) tup.data (cache.getD an 0)).map fun d => (d, cache)
  else
    let slow2 :=
      if ¬ IndexTupleAllFixed tup then
        (List.range an).any fun j => (desc.getD j dummyAttr).attlen < 1
      else false
    if slow2 then idxSlowPath tup desc an cache
    else idxFastPath tup desc an cache

/-- `index_getattr` (`itup.h`, not in the sources). Modelled from the spec
(§4.4): the same macro shell as `fastgetattr` — answer a null from the
bitmap, take the cached-offset or first-attribute shortcut on a no-nulls
tuple, otherwise call `nocache_index_getattr`. -/
def fast_index_getattr (tup : IndexTuple) (attnum : Nat) (desc : List Attr)
    (cache : List Int) : Option ((Option Datum × Bool) × List Int) :=
  if attnum = 0 then none
  else
    let an := attnum - 1
    if IndexTupleNoNulls tup then
      if cache.getD an 0 > 0 then
        (offFetch (desc.getD an dummyAttr) tup.data (cache.getD an 0)).map fun d =>
          ((some d, false), cache)
      else if an = 0 then
        (fetchatt (desc.getD 0 dummyAttr) tup.data 0).map fun d => ((some d, false), cache)
      else
        (nocache_index_getattr tup attnum desc cache).map fun r => ((some r.1, false), r.2)
    else
      if att_isnull an tup.bitmap then some ((none, true), cache)
      else (nocache_index_getattr tup attnum desc cache).map fun r => ((some r.1, false), r.2)

/-! ## `heap_attisnull`, `heap_copytuple`, `heap_modifytuple` -/

/-- The reserved negative system attribute numbers accepted by
`heap_attisnull`'s switch (their values are the standard
`SelfItemPointer/ObjectId/MinTransactionId/MinCommandId/MaxTransactionId/
MaxCommandId` numbers; the header defining them is not in the sources). -/
def systemAttributeNumbers : List Int := [-1, -2, -3, -4, -5, -6]

/-- `heap_attisnull(tup, attnum)` (lines 237–269): out-of-range attribute
numbers above `t_natts` report null; a no-nulls tuple reports not-null
before any bitmap look; positive numbers consult the bitmap; the reserved
system numbers report not-null; `0` and unknown negatives `elog`. -/
def heap_attisnull (tup : HeapTuple) (attnum : Int) : Option Bool :=
  if attnum > (tup.t_natts : Int) then some true
  else if HeapTupleNoNulls tup then some false
  else if attnum > 0 then some (att_isnull (attnum.toNat - 1) tup.t_bits)
  else if attnum ∈ systemAttributeNumbers then some false
  else none

/-- `MAXTUPLEN`. Modelled from the spec: the page-derived maximum tuple
length checked by `heap_copytuple` (`bufpage.h` is not in the sources). -/
def MAXTUPLEN : Nat := 8140

/-- The raw view `heap_copytuple` works on: the stored total length field
`t_len` and the tuple's allocated bytes. -/
structure RawHeapTuple where
  t_len : Nat
  bytes : List Nat
deriving DecidableEq, Repr

/-- `heap_copytuple(tuple)` (lines 696–714): an invalid (null) tuple pointer
returns `NULL` (no error); a stored length above `MAXTUPLEN` is a fatal
error raised before anything is allocated or copied; otherwise `palloc`
plus `memmove` of exactly `t_len` bytes. -/
def heap_copytuple (tuple : Option RawHeapTuple) : Option (Option RawHeapTuple) :=
  match tuple with
  | none => some none
  | some t =>
      if t.t_len > MAXTUPLEN then none
      else some (some { t_len := t.t_len, bytes := t.bytes.take t.t_len })

/-- The value/nulls-gathering loop of `heap_modifytuple` (lines 885–910):
keep (`' '`, decode the original through the accessor — a null decodes to
the null `Datum`, modelled `imm 0`), replace (`'r'`), anything else `elog`s. -/
def modifyGatherLoop (tup : HeapTuple) (desc : List Attr) (replValue : List Datum)
    (replNull : List Char) (repl : List Char) :
    Nat → Nat → List Datum × List Char × List Int →
    Option (List Datum × List Char × List Int)
  | _, 0, st => some st
  | attoff, fuel + 1, st =>
    if repl.getD attoff ' ' = ' ' then
      (fastgetattr tup (attoff + 1) desc st.2.2).bind fun r =>
        modifyGatherLoop tup desc replValue replNull repl (attoff + 1) fuel
          (st.1 ++ [(r.1.1).getD (Datum.imm 0)],
           st.2.1 ++ [if r.1.2 then 'n' else ' '], r.2)
    else if repl.getD attoff ' ' ≠ 'r' then none
    else
      modifyGatherLoop tup desc replValue replNull repl (attoff + 1) fuel
        (st.1 ++ [replValue.getD attoff dummyDatum],
         st.2.1 ++ [replNull.getD attoff ' '], st.2.2)

/-- `heap_modifytuple(tuple, buffer, relation, replValue, replNull, repl)`
(lines 833–941), for an in-memory tuple (invalid buffer): gather the merged
value and nulls arrays, build a new tuple with `heap_formtuple`, then copy
the original's header range `[&t_oid, &t_hoff)` forward and restore the new
tuple's `t_infomask` and `t_natts`.  The struct layout of that `memmove` is
not in the sources; modelled from the spec, its net effect keeps the new
tuple's length, attribute count, header offset and infomask and takes the
non-positional metadata `t_oid, t_cmin, t_cmax, t_xmin, t_xmax` from the
original (`t_ctid` sits before `t_oid` and is not copied). -/
def heap_modifytuple (tup : HeapTuple) (desc : List Attr) (replValue : List Datum)
    (replNull : List Char) (repl : List Char) (cache : List Int) :
    Option (HeapTuple × List Int) :=
  (modifyGatherLoop tup desc replValue replNull repl 0 desc.length ([], [], cache)).bind
    fun st =>
      (heap_formtuple desc st.1 st.2.1).map fun newTuple =>
        let merged : HeapTuple :=
          { newTuple with
            t_oid := tup.t_oid
            t_cmin := tup.t_cmin
            t_cmax := tup.t_cmax
            t_xmin := tup.t_xmin
            t_xmax := tup.t_xmax }
        (merged, st.2.2)

/-! ## Specification-side layout

The mathematical packed layout of a tuple's data region, defined attribute
by attribute, against which the size calculator, the serializer and the
accessors are verified. -/

/-- The alignment (in bytes) every switch in the sources applies before a
given attribute: varlena aligns to `'d' ? 8 : 4`, `char` not at all,
`short` to 2, `int32` to 4, larger fixed sizes to `'d' ? 8 : 4`
(`LONGALIGN = 4`). -/
def alignBytes (a : Attr) : Nat :=
  if a.attlen = -1 then (if a.attalign = 'd' then 8 else 4)
  else if a.attlen = 1 then 1
  else if a.attlen = 2 then 2
  else if a.attlen = 4 then 4
  else if a.attalign = 'd' then 8 else 4

/-- Packed byte size of one non-null attribute's payload. -/
def attSize (a : Attr) (v : Datum) : Nat :=
  if a.attlen = -1 then
    match v with
    | Datum.byref bs => VARSIZE bs
    | Datum.imm _ => 0
  else a.attlen.toNat

/-- The payload bytes one non-null attribute contributes. -/
def attBytes (a : Attr) (v : Datum) : List Nat :=
  if a.attlen = -1 then
    match v with
    | Datum.byref bs => bs.take (VARSIZE bs)
    | Datum.imm _ => []
  else if a.attbyval ∧ (a.attlen = 1 ∨ a.attlen = 2 ∨ a.attlen = 4) then
    match v with
    | Datum.imm w => natToBytes a.attlen.toNat w
    | Datum.byref _ => []
  else
    match v with
    | Datum.byref bs => bs.take a.attlen.toNat
    | Datum.imm _ => []

/-- The data region holding the first `j` attributes: each non-null
attribute is padded to its own alignment and appended. -/
def dataUpTo (desc : List Attr) (vals : List Datum) (nulls : List Char) : Nat → List Nat
  | 0 => []
  | j + 1 =>
    let prev := dataUpTo desc vals nulls j
    if nulls.getD j ' ' ≠ ' ' then prev
    else
      let a := desc.getD j dummyAttr
      prev ++ padTo (alignBytes a) prev.length ++ attBytes a (vals.getD j dummyDatum)

/-- Cursor position after the first `j` attributes. -/
def instEnd (desc : List Attr) (vals : List Datum) (nulls : List Char) (j : Nat) : Nat :=
  (dataUpTo desc vals nulls j).length

/-- Start offset of (non-null) attribute `j` in the data region. -/
def instOff (desc : List Attr) (vals : List Datum) (nulls : List Char) (j : Nat) : Nat :=
  alignTo (alignBytes (desc.getD j dummyAttr)) (instEnd desc vals nulls j)

/-- Cursor position after the first `j` attributes in the schema-invariant
layout assumed by the offset cache: every attribute fixed-length and
non-null. -/
def fixedEnd (desc : List Attr) : Nat → Nat
  | 0 => 0
  | j + 1 =>
    let a := desc.getD j dummyAttr
    alignTo (alignBytes a) (fixedEnd desc j) + a.attlen.toNat

/-- Schema-invariant start offset of attribute `j` (meaningful when all
earlier attributes are fixed-length and non-null). -/
def fixedOff (desc : List Attr) (j : Nat) : Nat :=
  alignTo (alignBytes (desc.getD j dummyAttr)) (fixedEnd desc j)

/-- The null bitmap over the first `j` attributes, one bit per attribute,
low-order bit first, set iff not null. -/
def bitmapUpTo (nulls : List Char) : Nat → List Nat
  | 0 => []
  | j + 1 =>
    let prev := bitmapUpTo nulls j
    let prev2 := if j % 8 = 0 then prev ++ [0] else prev
    if nulls.getD j ' ' = 'n' then prev2
    else prev2.dropLast ++ [prev2.getLastD 0 ||| (1 <<< (j % 8))]

/-- The `DataFill` bitmask value after `j` iterations. -/
def bitmaskAfter (j : Nat) : Nat := if j = 0 then 128 else 1 <<< ((j - 1) % 8)

/-- The accumulated `*infomask` after the first `j` attributes:
`HEAP_HASNULL` once a null was recorded in the bitmap, `HEAP_HASVARLENA`
once a non-null varlena was written. -/
def maskUpTo (hasBit : Bool) (desc : List Attr) (nulls : List Char) : Nat → Nat
  | 0 => 0
  | j + 1 =>
    if hasBit ∧ nulls.getD j ' ' = 'n' then maskUpTo hasBit desc nulls j ||| 1
    else if nulls.getD j ' ' = ' ' ∧ (desc.getD j dummyAttr).attlen = -1 then
      maskUpTo hasBit desc nulls j ||| 2
    else maskUpTo hasBit desc nulls j

/-! ## Well-formedness

Typed inputs the builders are given: a supported length class per
attribute, a datum matching each non-null attribute's length class and
by-value flag, and null flags drawn from `{' ', 'n'}`.  All `Bool`-valued
so concrete witnesses evaluate. -/

/-- A supported attribute descriptor: varlena and larger-than-word fixed
attributes are by-reference; 1/2/4-byte attributes may be either. -/
def attrOK (a : Attr) : Bool :=
  (a.attlen = -1 && !a.attbyval) ||
  (a.attlen = 1 || a.attlen = 2 || a.attlen = 4) ||
  (a.attlen > 4 && !a.attbyval)

/-- A datum fitting its descriptor: an in-range scalar for a by-value
attribute, a region of exactly the declared size for a by-reference fixed
attribute, a region whose leading length word equals its size (at least the
4-byte header) for a varlena. -/
def datumOK (a : Attr) (v : Datum) : Bool :=
  if a.attlen = -1 then
    match v with
    | Datum.byref bs => VARSIZE bs = bs.length && 4 ≤ bs.length
    | Datum.imm _ => false
  else if a.attbyval then
    match v with
    | Datum.imm w => w < 2 ^ (8 * a.attlen.toNat)
    | Datum.byref _ => false
  else
    match v with
    | Datum.byref bs => bs.length = a.attlen.toNat
    | Datum.imm _ => false

/-- Well-formed builder input: matching lengths, supported descriptors,
null flags in `{' ', 'n'}`, and a fitting datum at every non-null slot. -/
def wfInput (desc : List Attr) (vals : List Datum) (nulls : List Char) : Bool :=
  vals.length = desc.length && nulls.length = desc.length &&
  (List.range desc.length).all fun i =>
    attrOK (desc.getD i dummyAttr) &&
    (nulls.getD i ' ' = ' ' || nulls.getD i ' ' = 'n') &&
    (nulls.getD i ' ' ≠ ' ' || datumOK (desc.getD i dummyAttr) (vals.getD i dummyDatum))

/-- A supported fixed length class (what the walks' switches accept for an
attribute that is to be skipped over). -/
def fixedLenOK (a : Attr) : Bool := a.attlen = 1 || a.attlen = 2 || a.attlen = 4 || a.attlen > 4

/-- All attributes strictly before `j` have supported fixed length. -/
def fixedPrefixOK (desc : List Attr) (j : Nat) : Bool :=
  (List.range j).all fun k => fixedLenOK (desc.getD k dummyAttr)

/-- The spec §3 invariant of the cached-offset side table: an entry is
either unset (`≤ 0`) or records the schema-invariant aligned start offset
of its attribute, with every earlier attribute fixed-length. -/
def cacheValid (desc : List Attr) (cache : List Int) : Bool :=
  cache.length = desc.length &&
  (List.range desc.length).all fun j =>
    !(0 < cache.getD j 0) ||
    (fixedPrefixOK desc j && cache.getD j 0 = (fixedOff desc j : Int))

/-- All attributes strictly before `j` are non-null in this instance and of
supported fixed length — the condition under which the walks keep
`usecache` set. -/
def cleanBefore (desc : List Attr) (nulls : List Char) (j : Nat) : Bool :=
  (List.range j).all fun k =>
    nulls.getD k ' ' = ' ' && fixedLenOK (desc.getD k dummyAttr)

/-- The value `heap_modifytuple`'s gathering loop assembles for attribute
`i`: the replacement when the selector says `'r'`, otherwise the original
tuple's decoded value (a null decodes to the null `Datum`, modelled
`imm 0`). -/
def mergedVal (vals : List Datum) (nulls : List Char) (replValue : List Datum)
    (repl : List Char) (i : Nat) : Datum :=
  if repl.getD i ' ' = 'r' then replValue.getD i dummyDatum
  else if nulls.getD i ' ' = 'n' then Datum.imm 0
  else vals.getD i dummyDatum

/-- The null flag `heap_modifytuple`'s gathering loop assembles for
attribute `i`. -/
def mergedNull (nulls : List Char) (replNull : List Char) (repl : List Char)
    (i : Nat) : Char :=
  if repl.getD i ' ' = 'r' then replNull.getD i ' '
  else if nulls.getD i ' ' = 'n' then 'n' else ' '

/-! ## Arithmetic lemmas -/

theorem alignTo_one (n : Nat) : alignTo 1 n = n := by
  simp [alignTo]

theorem le_alignTo {a : Nat} (h : 0 < a) (n : Nat) : n ≤ alignTo a n := by
  have h1 : n + a - 1 < (n + a - 1) / a * a + a := Nat.lt_div_mul_add h
  unfold alignTo
  omega

theorem alignTo_lt {a : Nat} (h : 0 < a) (n : Nat) : alignTo a n < n + a := by
  have h1 : (n + a - 1) / a * a ≤ n + a - 1 := Nat.div_mul_le_self _ _
  unfold alignTo
  omega

theorem alignTo_of_dvd {a n : Nat} (h : 0 < a) (hd : a ∣ n) : alignTo a n = n := by
  obtain ⟨q, rfl⟩ := hd
  unfold alignTo
  rw [Nat.add_sub_assoc h, Nat.mul_add_div h, Nat.div_eq_of_lt (by omega)]
  ring

theorem alignTo_add_right {a : Nat} (h : 0 < a) (n : Nat) :
    alignTo a (n + a) = alignTo a n + a := by
  unfold alignTo
  have : n + a + a - 1 = n + a - 1 + a := by omega
  rw [this, Nat.add_div_right _ h]
  ring

theorem alignTo_dvd (a n : Nat) : a ∣ alignTo a n := dvd_mul_left a _

theorem alignI_coe {a : Nat} (h : 0 < a) (n : Nat) :
    alignI a (n : Int) = (alignTo a n : Int) := by
  unfold alignI alignTo
  have h1 : (n : Int) + a - 1 = ((n + a - 1 : Nat) : Int) := by omega
  rw [h1, ← Int.ofNat_fdiv]
  push_cast
  ring

/-! ## Byte-level lemmas -/

theorem length_natToBytes (len w : Nat) : (natToBytes len w).length = len := by
  induction len generalizing w with
  | zero => rfl
  | succ k ih => simp [natToBytes, ih]

theorem leNat_natToBytes {len w : Nat} (h : w < 2 ^ (8 * len)) :
    leNat (natToBytes len w) = w := by
  induction len generalizing w with
  | zero =>
    simp [natToBytes, leNat]
    omega
  | succ k ih =>
    have hdiv : w / 256 < 2 ^ (8 * k) := by
      rw [Nat.div_lt_iff_lt_mul (by norm_num)]
      calc w < 2 ^ (8 * (k + 1)) := h
        _ = 2 ^ (8 * k) * 256 := by rw [Nat.mul_succ, pow_add]; norm_num
    simp only [natToBytes, leNat, ih hdiv]
    omega

theorem padTo_length (a off : Nat) : (padTo a off).length = alignTo a off - off := by
  simp [padTo]

theorem VARSIZE_append {bs : List Nat} (h : 4 ≤ bs.length) (rest : List Nat) :
    VARSIZE (bs ++ rest) = VARSIZE bs := by
  unfold VARSIZE
  rw [List.take_append_of_le_length h]

/-! ## Well-formedness projections -/

theorem wfInput_lengths {desc : List Attr} {vals : List Datum} {nulls : List Char}
    (h : wfInput desc vals nulls = true) :
    vals.length = desc.length ∧ nulls.length = desc.length := by
  simp only [wfInput, Bool.and_eq_true, decide_eq_true_eq] at h
  exact ⟨h.1.1, h.1.2⟩

theorem wf_at {desc : List Attr} {vals : List Datum} {nulls : List Char}
    (h : wfInput desc vals nulls = true) {j : Nat} (hj : j < desc.length) :
    attrOK (desc.getD j dummyAttr) = true ∧
    (nulls.getD j ' ' = ' ' ∨ nulls.getD j ' ' = 'n') ∧
    (nulls.getD j ' ' = ' ' →
      datumOK (desc.getD j dummyAttr) (vals.getD j dummyDatum) = true) := by
  simp only [wfInput, Bool.and_eq_true, List.all_eq_true, List.mem_range,
    decide_eq_true_eq, Bool.or_eq_true] at h
  obtain ⟨-, h2⟩ := h
  obtain ⟨⟨ha, hn⟩, hd⟩ := h2 j hj
  refine ⟨ha, ?_, ?_⟩
  · tauto
  · intro hsp
    rcases hd with hd | hd
    · exact absurd hsp hd
    · exact hd

theorem attrOK_cases {a : Attr} (h : attrOK a = true) :
    (a.attlen = -1 ∧ a.attbyval = false) ∨ a.attlen = 1 ∨ a.attlen = 2 ∨ a.attlen = 4 ∨
    (4 < a.attlen ∧ a.attbyval = false) := by
  simp only [attrOK, Bool.or_eq_true, Bool.and_eq_true, Bool.not_eq_true',
    decide_eq_true_eq] at h
  tauto

theorem alignBytes_pos (a : Attr) : 0 < alignBytes a := by
  unfold alignBytes
  split_ifs <;> norm_num

/-! ## Layout lemmas -/

theorem length_attBytes {a : Attr} {v : Datum} (ha : attrOK a = true)
    (hv : datumOK a v = true) : (attBytes a v).length = attSize a v := by
  by_cases hm : a.attlen = -1
  · cases v with
    | imm w => simp [datumOK, hm] at hv
    | byref bs =>
        simp only [datumOK, hm, if_true, reduceIte, Bool.and_eq_true,
          decide_eq_true_eq] at hv
        simp only [attBytes, attSize, hm, reduceIte]
        rw [List.length_take, hv.1]
        omega
  · by_cases hb : a.attbyval = true
    · have hlen : a.attlen = 1 ∨ a.attlen = 2 ∨ a.attlen = 4 := by
        rcases attrOK_cases ha with ⟨h1, -⟩ | h1 | h1 | h1 | ⟨-, h2⟩
        · exact absurd h1 hm
        · exact Or.inl h1
        · exact Or.inr (Or.inl h1)
        · exact Or.inr (Or.inr h1)
        · rw [hb] at h2; cases h2
      cases v with
      | byref bs => simp [datumOK, hm, hb] at hv
      | imm w =>
          have hcond : a.attbyval = true ∧
              (a.attlen = 1 ∨ a.attlen = 2 ∨ a.attlen = 4) := ⟨hb, hlen⟩
          simp only [attBytes, attSize, hm, reduceIte, if_pos hcond]
          rw [length_natToBytes]
    · cases v with
      | imm w => simp [datumOK, hm, hb] at hv
      | byref bs =>
          have hv2 : bs.length = a.attlen.toNat := by
            simp only [datumOK, hm, reduceIte, hb, Bool.false_eq_true, if_false,
              decide_eq_true_eq] at hv
            exact hv
          have hcond : ¬ (a.attbyval = true ∧
              (a.attlen = 1 ∨ a.attlen = 2 ∨ a.attlen = 4)) := by
            intro hc
            exact hb hc.1
          simp only [attBytes, attSize, hm, reduceIte, if_neg hcond]
          rw [List.length_take]
          omega

theorem dataUpTo_succ_null {desc : List Attr} {vals : List Datum} {nulls : List Char}
    {j : Nat} (h : nulls.getD j ' ' ≠ ' ') :
    dataUpTo desc vals nulls (j + 1) = dataUpTo desc vals nulls j := by
  simp only [dataUpTo]
  rw [if_pos h]

theorem dataUpTo_succ {desc : List Attr} {vals : List Datum} {nulls : List Char}
    {j : Nat} (h : nulls.getD j ' ' = ' ') :
    dataUpTo desc vals nulls (j + 1) =
      dataUpTo desc vals nulls j ++
      padTo (alignBytes (desc.getD j dummyAttr)) (instEnd desc vals nulls j) ++
      attBytes (desc.getD j dummyAttr) (vals.getD j dummyDatum) := by
  simp only [dataUpTo]
  rw [if_neg (by rw [h]; exact fun hc => hc rfl)]
  rfl

theorem instEnd_le_instOff (desc : List Attr) (vals : List Datum) (nulls : List Char)
    (j : Nat) : instEnd desc vals nulls j ≤ instOff desc vals nulls j :=
  le_alignTo (alignBytes_pos _) _

theorem instEnd_succ {desc : List Attr} {vals : List Datum} {nulls : List Char}
    {j : Nat} (h : nulls.getD j ' ' = ' ')
    (ha : attrOK (desc.getD j dummyAttr) = true)
    (hv : datumOK (desc.getD j dummyAttr) (vals.getD j dummyDatum) = true) :
    instEnd desc vals nulls (j + 1) =
      instOff desc vals nulls j +
      attSize (desc.getD j dummyAttr) (vals.getD j dummyDatum) := by
  have hle := instEnd_le_instOff desc vals nulls j
  have he : instEnd desc vals nulls j = (dataUpTo desc vals nulls j).length := rfl
  rw [instEnd, dataUpTo_succ h]
  simp only [List.length_append, padTo_length, length_attBytes ha hv]
  unfold instOff at hle ⊢
  rw [← he]
  omega

theorem instEnd_succ_null {desc : List Attr} {vals : List Datum} {nulls : List Char}
    {j : Nat} (h : nulls.getD j ' ' ≠ ' ') :
    instEnd desc vals nulls (j + 1) = instEnd desc vals nulls j := by
  rw [instEnd, dataUpTo_succ_null h]; rfl

theorem dataUpTo_split {desc : List Attr} {vals : List Datum} {nulls : List Char}
    {j k : Nat} (h : j ≤ k) :
    ∃ rest, dataUpTo desc vals nulls k = dataUpTo desc vals nulls j ++ rest := by
  induction k with
  | zero =>
    have hj0 : j = 0 := Nat.le_zero.mp h
    subst hj0
    exact ⟨[], by simp⟩
  | succ m ih =>
    rcases Nat.lt_or_ge j (m + 1) with hlt | hge
    · obtain ⟨rest, hr⟩ := ih (by omega)
      by_cases hn : nulls.getD m ' ' = ' '
      · exact ⟨rest ++ padTo (alignBytes (desc.getD m dummyAttr)) (instEnd desc vals nulls m)
          ++ attBytes (desc.getD m dummyAttr) (vals.getD m dummyDatum),
          by rw [dataUpTo_succ hn, hr]; simp [List.append_assoc]⟩
      · exact ⟨rest, by rw [dataUpTo_succ_null hn, hr]⟩
    · have : j = m + 1 := by omega
      exact ⟨[], by simp [this]⟩

theorem instEnd_mono {desc : List Attr} {vals : List Datum} {nulls : List Char}
    {j k : Nat} (h : j ≤ k) : instEnd desc vals nulls j ≤ instEnd desc vals nulls k := by
  obtain ⟨rest, hr⟩ := @dataUpTo_split desc vals nulls j k h
  rw [instEnd, instEnd, hr]
  simp

theorem drop_dataUpTo {desc : List Attr} {vals : List Datum} {nulls : List Char}
    {j k : Nat} (h : nulls.getD j ' ' = ' ') (hk : j < k) :
    ∃ rest, (dataUpTo desc vals nulls k).drop (instOff desc vals nulls j) =
      attBytes (desc.getD j dummyAttr) (vals.getD j dummyDatum) ++ rest := by
  obtain ⟨rest, hr⟩ := @dataUpTo_split desc vals nulls (j + 1) k hk
  rw [hr, dataUpTo_succ h]
  refine ⟨rest, ?_⟩
  have hlen : (dataUpTo desc vals nulls j ++
      padTo (alignBytes (desc.getD j dummyAttr)) (instEnd desc vals nulls j)).length =
      instOff desc vals nulls j := by
    have hle := instEnd_le_instOff desc vals nulls j
    have he : instEnd desc vals nulls j = (dataUpTo desc vals nulls j).length := rfl
    simp only [List.length_append, padTo_length]
    unfold instOff at hle ⊢
    rw [← he]
    omega
  calc ((dataUpTo desc vals nulls j ++
          padTo (alignBytes (desc.getD j dummyAttr)) (instEnd desc vals nulls j) ++
          attBytes (desc.getD j dummyAttr) (vals.getD j dummyDatum)) ++ rest).drop
        (instOff desc vals nulls j)
      = ((dataUpTo desc vals nulls j ++
          padTo (alignBytes (desc.getD j dummyAttr)) (instEnd desc vals nulls j)) ++
          (attBytes (desc.getD j dummyAttr) (vals.getD j dummyDatum) ++ rest)).drop
        (instOff desc vals nulls j) := by
        simp [List.append_assoc]
    _ = attBytes (desc.getD j dummyAttr) (vals.getD j dummyDatum) ++ rest := by
        rw [← hlen, List.drop_left]

theorem instOff_add_size_le {desc : List Attr} {vals : List Datum} {nulls : List Char}
    {j k : Nat} (h : nulls.getD j ' ' = ' ')
    (ha : attrOK (desc.getD j dummyAttr) = true)
    (hv : datumOK (desc.getD j dummyAttr) (vals.getD j dummyDatum) = true)
    (hk : j < k) :
    instOff desc vals nulls j + attSize (desc.getD j dummyAttr) (vals.getD j dummyDatum) ≤
      instEnd desc vals nulls k := by
  rw [← instEnd_succ h ha hv]
  exact instEnd_mono hk

/-- The decode half of the round trip: fetching a non-null attribute at its
layout offset from (any extension of) the packed data region returns the
originally supplied datum. -/
theorem fetchatt_instOff {desc : List Attr} {vals : List Datum} {nulls : List Char}
    {j k : Nat} (hwf : wfInput desc vals nulls = true) (hj : j < desc.length)
    (h : nulls.getD j ' ' = ' ') (hk : j < k) :
    fetchatt (desc.getD j dummyAttr) (dataUpTo desc vals nulls k)
      (instOff desc vals nulls j) = some (vals.getD j dummyDatum) := by
  obtain ⟨ha, -, hd⟩ := wf_at hwf hj
  have hv := hd h
  obtain ⟨rest, hdrop⟩ := @drop_dataUpTo desc vals nulls j k h hk
  have hbound := instOff_add_size_le h ha hv hk
  have hbuf : (dataUpTo desc vals nulls k).length = instEnd desc vals nulls k := rfl
  set a := desc.getD j dummyAttr with hadef
  set v := vals.getD j dummyDatum with hvdef
  by_cases hm : a.attlen = -1
  · -- varlena: by-reference, bounded by its own length word
    have hbv : a.attbyval = false := by
      rcases attrOK_cases ha with ⟨-, h2⟩ | h1 | h1 | h1 | ⟨h1, -⟩
      · exact h2
      · rw [h1] at hm; simp at hm
      · rw [h1] at hm; simp at hm
      · rw [h1] at hm; simp at hm
      · rw [hm] at h1; omega
    cases hvv : v with
    | imm w => rw [hvv] at hv; simp [datumOK, hm] at hv
    | byref bs =>
        rw [hvv] at hv hdrop hbound
        simp only [datumOK, hm, reduceIte, Bool.and_eq_true, decide_eq_true_eq] at hv
        have hab : attBytes a (Datum.byref bs) = bs := by
          simp only [attBytes, hm, reduceIte, hv.1, List.take_length]
        rw [hab] at hdrop
        have hsz : attSize a (Datum.byref bs) = bs.length := by
          simp [attSize, hm, hv.1]
        rw [hsz] at hbound
        have hvs : VARSIZE ((dataUpTo desc vals nulls k).drop
            (instOff desc vals nulls j)) = bs.length := by
          rw [hdrop, VARSIZE_append hv.2, hv.1]
        unfold fetchatt
        rw [if_neg (by rw [hbv]; simp), if_pos hm, hvs,
          if_pos (by rw [hbuf]; exact hbound), hdrop,
          List.take_append_of_le_length (le_refl bs.length), List.take_length]
  · have hsz : attSize a v = a.attlen.toNat := by
      simp [attSize, hm]
    rw [hsz] at hbound
    by_cases hb : a.attbyval = true
    · -- by-value scalar
      have hlen : a.attlen = 1 ∨ a.attlen = 2 ∨ a.attlen = 4 := by
        rcases attrOK_cases ha with ⟨h1, -⟩ | h1 | h1 | h1 | ⟨-, h2⟩
        · exact absurd h1 hm
        · exact Or.inl h1
        · exact Or.inr (Or.inl h1)
        · exact Or.inr (Or.inr h1)
        · rw [hb] at h2; cases h2
      cases hvv : v with
      | byref bs => rw [hvv] at hv; simp [datumOK, hm, hb] at hv
      | imm w =>
          rw [hvv] at hv hdrop
          have hwlt : w < 2 ^ (8 * a.attlen.toNat) := by
            simp only [datumOK, hm, reduceIte, hb, if_true, decide_eq_true_eq] at hv
            exact hv
          have hab : attBytes a (Datum.imm w) = natToBytes a.attlen.toNat w := by
            simp only [attBytes, hm, reduceIte, if_pos (And.intro hb hlen)]
          rw [hab] at hdrop
          unfold fetchatt
          rw [if_pos (And.intro hb hlen), if_pos (by rw [hbuf]; exact hbound), hdrop,
            List.take_append_of_le_length (by rw [length_natToBytes]),
            List.take_of_length_le (by rw [length_natToBytes]),
            leNat_natToBytes hwlt]
    · -- by-reference fixed length
      cases hvv : v with
      | imm w => rw [hvv] at hv; simp [datumOK, hm, hb] at hv
      | byref bs =>
          rw [hvv] at hv hdrop
          have hblen : bs.length = a.attlen.toNat := by
            simp only [datumOK, hm, reduceIte, hb, Bool.false_eq_true, if_false,
              decide_eq_true_eq] at hv
            exact hv
          have hcneg : ¬ (a.attbyval = true ∧
              (a.attlen = 1 ∨ a.attlen = 2 ∨ a.attlen = 4)) := fun hc => hb hc.1
          have hab : attBytes a (Datum.byref bs) = bs := by
            simp only [attBytes, hm, reduceIte,
              if_neg hcneg, ← hblen, List.take_length]
          rw [hab] at hdrop
          unfold fetchatt
          rw [if_neg hcneg, if_neg hm,
            if_pos (by rw [hbuf]; exact hbound), hdrop,
            List.take_append_of_le_length (by omega),
            List.take_of_length_le (by omega)]

/-! ## The size calculator computes the layout length -/

theorem alignBytes_varlena {a : Attr} (hm : a.attlen = -1) :
    alignBytes a = if a.attalign = 'd' then 8 else 4 := by
  simp [alignBytes, hm]

theorem alignBytes_one {a : Attr} (h1 : a.attlen = 1) : alignBytes a = 1 := by
  simp [alignBytes, h1]

theorem alignBytes_two {a : Attr} (h1 : a.attlen = 2) : alignBytes a = 2 := by
  simp [alignBytes, h1]

theorem alignBytes_four {a : Attr} (h1 : a.attlen = 4) : alignBytes a = 4 := by
  simp [alignBytes, h1]

theorem alignBytes_big {a : Attr} (h1 : 4 < a.attlen) :
    alignBytes a = if a.attalign = 'd' then 8 else 4 := by
  have h2 : ¬ a.attlen = -1 := by omega
  have h3 : ¬ a.attlen = 1 := by omega
  have h4 : ¬ a.attlen = 2 := by omega
  have h5 : ¬ a.attlen = 4 := by omega
  simp [alignBytes, h2, h3, h4, h5]

theorem computeDataSizeLoop_spec {desc : List Attr} {vals : List Datum} {nulls : List Char}
    (hwf : wfInput desc vals nulls = true) :
    ∀ fuel j, j + fuel = desc.length →
      computeDataSizeLoop desc vals nulls j fuel (instEnd desc vals nulls j) =
        some (instEnd desc vals nulls desc.length) := by
  intro fuel
  induction fuel with
  | zero =>
    intro j hj
    have : j = desc.length := by omega
    subst this
    rfl
  | succ f ih =>
    intro j hj
    have hjlt : j < desc.length := by omega
    obtain ⟨ha, -, hd⟩ := wf_at hwf hjlt
    have ihj := ih (j + 1) (by omega)
    simp only [computeDataSizeLoop]
    by_cases hnull : nulls.getD j ' ' = ' '
    · have hv := hd hnull
      have hng : ¬ (nulls.getD j ' ' ≠ ' ') := fun hc => hc hnull
      rw [if_neg hng]
      rcases attrOK_cases ha with ⟨hm, hbv⟩ | h1 | h1 | h1 | ⟨h1, hbv⟩
      · -- varlena
        rw [if_pos hm]
        cases hvv : vals.getD j dummyDatum with
        | imm w =>
            rw [hvv] at hv
            unfold datumOK at hv
            rw [if_pos hm] at hv
            exact Bool.noConfusion hv
        | byref bs =>
            show computeDataSizeLoop desc vals nulls (j + 1) f
              ((if (desc.getD j dummyAttr).attalign = 'd' then
                  DOUBLEALIGN (instEnd desc vals nulls j)
                else INTALIGN (instEnd desc vals nulls j)) + VARSIZE bs) =
              some (instEnd desc vals nulls desc.length)
            have hnew : (if (desc.getD j dummyAttr).attalign = 'd' then
                DOUBLEALIGN (instEnd desc vals nulls j)
                else INTALIGN (instEnd desc vals nulls j)) + VARSIZE bs =
                instEnd desc vals nulls (j + 1) := by
              rw [instEnd_succ hnull ha hv]
              unfold instOff
              rw [alignBytes_varlena hm]
              have hsz : attSize (desc.getD j dummyAttr) (vals.getD j dummyDatum) =
                  VARSIZE bs := by
                rw [hvv]; unfold attSize; rw [if_pos hm]
              rw [hsz]
              unfold DOUBLEALIGN INTALIGN
              by_cases hal : (desc.getD j dummyAttr).attalign = 'd'
              · rw [if_pos hal, if_pos hal]
              · rw [if_neg hal, if_neg hal]
            rw [hnew]
            exact ihj
      · -- one byte
        have hm : ¬ (desc.getD j dummyAttr).attlen = -1 := by omega
        rw [if_neg hm, if_pos h1]
        have hnew : instEnd desc vals nulls j + 1 = instEnd desc vals nulls (j + 1) := by
          rw [instEnd_succ hnull ha hv]
          unfold instOff
          rw [alignBytes_one h1, alignTo_one]
          have hsz : attSize (desc.getD j dummyAttr) (vals.getD j dummyDatum) = 1 := by
            unfold attSize; rw [if_neg hm, h1]; rfl
          rw [hsz]
        rw [hnew]
        exact ihj
      · -- short
        have hm : ¬ (desc.getD j dummyAttr).attlen = -1 := by omega
        have hm1 : ¬ (desc.getD j dummyAttr).attlen = 1 := by omega
        rw [if_neg hm, if_neg hm1, if_pos h1]
        have hnew : SHORTALIGN (instEnd desc vals nulls j + 2) =
            instEnd desc vals nulls (j + 1) := by
          rw [instEnd_succ hnull ha hv]
          unfold instOff SHORTALIGN
          rw [alignBytes_two h1, alignTo_add_right (by norm_num)]
          have hsz : attSize (desc.getD j dummyAttr) (vals.getD j dummyDatum) = 2 := by
            unfold attSize; rw [if_neg hm, h1]; rfl
          rw [hsz]
        rw [hnew]
        exact ihj
      · -- int32
        have hm : ¬ (desc.getD j dummyAttr).attlen = -1 := by omega
        have hm1 : ¬ (desc.getD j dummyAttr).attlen = 1 := by omega
        have hm2 : ¬ (desc.getD j dummyAttr).attlen = 2 := by omega
        rw [if_neg hm, if_neg hm1, if_neg hm2, if_pos h1]
        have hnew : INTALIGN (instEnd desc vals nulls j + 4) =
            instEnd desc vals nulls (j + 1) := by
          rw [instEnd_succ hnull ha hv]
          unfold instOff INTALIGN
          rw [alignBytes_four h1, alignTo_add_right (by norm_num)]
          have hsz : attSize (desc.getD j dummyAttr) (vals.getD j dummyDatum) = 4 := by
            unfold attSize; rw [if_neg hm, h1]; rfl
          rw [hsz]
        rw [hnew]
        exact ihj
      · -- larger fixed size
        have hm : ¬ (desc.getD j dummyAttr).attlen = -1 := by omega
        have hm1 : ¬ (desc.getD j dummyAttr).attlen = 1 := by omega
        have hm2 : ¬ (desc.getD j dummyAttr).attlen = 2 := by omega
        have hm4 : ¬ (desc.getD j dummyAttr).attlen = 4 := by omega
        have hm5 : ¬ (desc.getD j dummyAttr).attlen < 4 := by omega
        rw [if_neg hm, if_neg hm1, if_neg hm2, if_neg hm4, if_neg hm5]
        have hnew : (if (desc.getD j dummyAttr).attalign = 'd' then
            DOUBLEALIGN (instEnd desc vals nulls j)
            else LONGALIGN (instEnd desc vals nulls j)) +
            (desc.getD j dummyAttr).attlen.toNat = instEnd desc vals nulls (j + 1) := by
          rw [instEnd_succ hnull ha hv]
          unfold instOff
          rw [alignBytes_big h1]
          have hsz : attSize (desc.getD j dummyAttr) (vals.getD j dummyDatum) =
              (desc.getD j dummyAttr).attlen.toNat := by
            unfold attSize; rw [if_neg hm]
          rw [hsz]
          unfold DOUBLEALIGN LONGALIGN
          by_cases hal : (desc.getD j dummyAttr).attalign = 'd'
          · rw [if_pos hal, if_pos hal]
          · rw [if_neg hal, if_neg hal]
        rw [hnew]
        exact ihj
    · -- null attribute: skipped, contributes nothing
      have hp : nulls.getD j ' ' ≠ ' ' := hnull
      rw [instEnd_succ_null hp] at ihj
      rw [if_pos hp]
      exact ihj

/-- `ComputeDataSize` computes exactly the layout's total data length. -/
theorem ComputeDataSize_spec {desc : List Attr} {vals : List Datum} {nulls : List Char}
    (hwf : wfInput desc vals nulls = true) :
    ComputeDataSize desc vals nulls = some (instEnd desc vals nulls desc.length) := by
  have h0 : instEnd desc vals nulls 0 = 0 := rfl
  have := computeDataSizeLoop_spec hwf desc.length 0 (by omega)
  rw [h0] at this
  exact this

/-! ## The serializer writes the layout -/

theorem padTo_one (off : Nat) : padTo 1 off = [] := by
  simp [padTo, alignTo_one]

theorem fillOne_spec {a : Attr} {v : Datum} (ha : attrOK a = true)
    (hv : datumOK a v = true) (data : List Nat) :
    fillOne a v data = some (data ++ padTo (alignBytes a) data.length ++ attBytes a v,
      if a.attlen = -1 then 2 else 0) := by
  rcases attrOK_cases ha with ⟨h1, hbv⟩ | h1 | h1 | h1 | ⟨h1, hbv⟩
  · -- varlena
    cases v with
    | imm w => simp [datumOK, h1] at hv
    | byref bs => simp [fillOne, attBytes, alignBytes, h1]
  · -- one byte
    cases hb : a.attbyval with
    | true =>
        cases v with
        | byref bs => simp [datumOK, h1, hb] at hv
        | imm w => simp [fillOne, attBytes, alignBytes, h1, hb, natToBytes, padTo_one]
    | false =>
        cases v with
        | imm w => simp [datumOK, h1, hb] at hv
        | byref bs =>
            simp only [datumOK, h1, hb] at hv
            simp only [show ¬ ((1 : Int) = -1) from by decide, if_false, Bool.false_eq_true,
              decide_eq_true_eq] at hv
            simp [fillOne, attBytes, alignBytes, h1, hb, padTo_one, hv]
  · -- short
    cases hb : a.attbyval with
    | true =>
        cases v with
        | byref bs => simp [datumOK, h1, hb] at hv
        | imm w => simp [fillOne, attBytes, alignBytes, h1, hb]
    | false =>
        cases v with
        | imm w => simp [datumOK, h1, hb] at hv
        | byref bs =>
            simp only [datumOK, h1, hb] at hv
            simp only [show ¬ ((2 : Int) = -1) from by decide, if_false, Bool.false_eq_true,
              decide_eq_true_eq] at hv
            simp [fillOne, attBytes, alignBytes, h1, hb, hv]
  · -- int32
    cases hb : a.attbyval with
    | true =>
        cases v with
        | byref bs => simp [datumOK, h1, hb] at hv
        | imm w => simp [fillOne, attBytes, alignBytes, h1, hb]
    | false =>
        cases v with
        | imm w => simp [datumOK, h1, hb] at hv
        | byref bs =>
            simp only [datumOK, h1, hb] at hv
            simp only [show ¬ ((4 : Int) = -1) from by decide, if_false, Bool.false_eq_true,
              decide_eq_true_eq] at hv
            simp [fillOne, attBytes, alignBytes, h1, hb, hv]
  · -- larger fixed size
    have hm : ¬ a.attlen = -1 := by omega
    have hm1 : ¬ a.attlen = 1 := by omega
    have hm2 : ¬ a.attlen = 2 := by omega
    have hm4 : ¬ a.attlen = 4 := by omega
    have hm5 : ¬ a.attlen < 4 := by omega
    cases v with
    | imm w => simp [datumOK, hm, hbv] at hv
    | byref bs =>
        simp only [datumOK, hm, hbv, if_false, Bool.false_eq_true, reduceIte,
          decide_eq_true_eq] at hv
        simp [fillOne, attBytes, alignBytes, hm, hm1, hm2, hm4, hm5, hbv, hv]

theorem bitmaskAfter_eq_128 (j : Nat) : bitmaskAfter j = 128 ↔ j % 8 = 0 := by
  unfold bitmaskAfter
  by_cases hj : j = 0
  · simp [hj]
  · rw [if_neg hj]
    have hk : (j - 1) % 8 < 8 := Nat.mod_lt _ (by norm_num)
    constructor
    · intro he
      have h7 : (j - 1) % 8 = 7 := by
        by_contra hne
        interval_cases hkk : (j - 1) % 8 <;> simp_all
      omega
    · intro he
      have h7 : (j - 1) % 8 = 7 := by omega
      rw [h7]
      rfl

theorem bitmaskAfter_succ (j : Nat) (h : j % 8 ≠ 0) :
    bitmaskAfter j * 2 = bitmaskAfter (j + 1) := by
  unfold bitmaskAfter
  have hj : ¬ j = 0 := by omega
  rw [if_neg hj, if_neg (by omega), Nat.add_sub_cancel]
  have hstep : (j - 1) % 8 + 1 = j % 8 := by omega
  rw [Nat.shiftLeft_eq, Nat.shiftLeft_eq, ← hstep, pow_succ]
  ring

theorem bitStep_spec (nulls : List Char) (j : Nat) :
    bitStep (bitmapUpTo nulls j) (bitmaskAfter j) (nulls.getD j ' ' = 'n') =
      (bitmapUpTo nulls (j + 1), bitmaskAfter (j + 1)) := by
  unfold bitStep
  by_cases hz : j % 8 = 0
  · have h128 : ¬ bitmaskAfter j ≠ 128 := fun hc => hc ((bitmaskAfter_eq_128 j).mpr hz)
    rw [if_neg h128]
    have hbm : bitmaskAfter (j + 1) = 1 := by
      unfold bitmaskAfter
      rw [if_neg (by omega : ¬ j + 1 = 0), Nat.add_sub_cancel, hz]
      rfl
    by_cases hn : nulls.getD j ' ' = 'n'
    · rw [if_pos (decide_eq_true hn)]
      have hbits : bitmapUpTo nulls (j + 1) = bitmapUpTo nulls j ++ [0] := by
        conv_lhs => simp only [bitmapUpTo]
        rw [if_pos hz, if_pos hn]
      rw [hbits, hbm]
    · have hdn : ¬ (decide (nulls.getD j ' ' = 'n') = true) :=
        fun hc => hn (of_decide_eq_true hc)
      rw [if_neg hdn]
      have hbits : bitmapUpTo nulls (j + 1) = (bitmapUpTo nulls j ++ [0]).dropLast ++
          [(bitmapUpTo nulls j ++ [0]).getLastD 0 ||| 1] := by
        conv_lhs => simp only [bitmapUpTo]
        rw [if_pos hz, if_neg hn, hz]
        rfl
      rw [hbits, hbm]
  · have h128 : bitmaskAfter j ≠ 128 := fun hc => hz ((bitmaskAfter_eq_128 j).mp hc)
    rw [if_pos h128]
    have hbm : bitmaskAfter (j + 1) = bitmaskAfter j * 2 := (bitmaskAfter_succ j hz).symm
    by_cases hn : nulls.getD j ' ' = 'n'
    · rw [if_pos (decide_eq_true hn)]
      have hbits : bitmapUpTo nulls (j + 1) = bitmapUpTo nulls j := by
        conv_lhs => simp only [bitmapUpTo]
        rw [if_neg hz, if_pos hn]
      rw [hbits, hbm]
    · have hdn : ¬ (decide (nulls.getD j ' ' = 'n') = true) :=
        fun hc => hn (of_decide_eq_true hc)
      rw [if_neg hdn]
      have hbm2 : bitmaskAfter (j + 1) = 1 <<< (j % 8) := by
        unfold bitmaskAfter
        rw [if_neg (by omega : ¬ j + 1 = 0), Nat.add_sub_cancel]
      have hbits : bitmapUpTo nulls (j + 1) = (bitmapUpTo nulls j).dropLast ++
          [(bitmapUpTo nulls j).getLastD 0 ||| bitmaskAfter j * 2] := by
        conv_lhs => simp only [bitmapUpTo]
        rw [if_neg hz, if_neg hn, ← hbm2, hbm]
      rw [hbits, hbm]

theorem maskUpTo_zero (hasBit : Bool) (desc : List Attr) (nulls : List Char) :
    maskUpTo hasBit desc nulls 0 = 0 := rfl

theorem maskUpTo_succ_null {hasBit : Bool} {desc : List Attr} {nulls : List Char}
    {j : Nat} (hB : hasBit = true) (hn : nulls.getD j ' ' = 'n') :
    maskUpTo hasBit desc nulls (j + 1) = maskUpTo hasBit desc nulls j ||| 1 := by
  conv_lhs => unfold maskUpTo
  rw [if_pos (And.intro hB hn)]

theorem maskUpTo_succ_notnull {hasBit : Bool} {desc : List Attr} {nulls : List Char}
    {j : Nat} (hn : nulls.getD j ' ' = ' ') :
    maskUpTo hasBit desc nulls (j + 1) = maskUpTo hasBit desc nulls j |||
      (if (desc.getD j dummyAttr).attlen = -1 then 2 else 0) := by
  conv_lhs => unfold maskUpTo
  have hc1 : ¬ (hasBit = true ∧ nulls.getD j ' ' = 'n') := by
    intro hc
    rw [hn] at hc
    exact absurd hc.2 (by decide)
  rw [if_neg hc1]
  by_cases hm : (desc.getD j dummyAttr).attlen = -1
  · rw [if_pos (And.intro hn hm), if_pos hm]
  · rw [if_neg (fun hc : _ ∧ _ => hm hc.2), if_neg hm, Nat.or_zero]

theorem dataFillLoop_spec {hasBit : Bool} {desc : List Attr} {vals : List Datum}
    {nulls : List Char} (hwf : wfInput desc vals nulls = true)
    (hbit : hasBit = true ∨ ∀ i < desc.length, nulls.getD i ' ' = ' ') :
    ∀ fuel j, j + fuel = desc.length →
      dataFillLoop hasBit desc vals nulls j fuel
        (dataUpTo desc vals nulls j,
         (if hasBit then bitmapUpTo nulls j else []),
         (if hasBit then bitmaskAfter j else 128),
         maskUpTo hasBit desc nulls j) =
      some (dataUpTo desc vals nulls desc.length,
         (if hasBit then bitmapUpTo nulls desc.length else []),
         (if hasBit then bitmaskAfter desc.length else 128),
         maskUpTo hasBit desc nulls desc.length) := by
  intro fuel
  induction fuel with
  | zero =>
    intro j hj
    have : j = desc.length := by omega
    subst this
    rfl
  | succ f ih =>
    intro j hj
    have hjlt : j < desc.length := by omega
    obtain ⟨ha, hnor, hd⟩ := wf_at hwf hjlt
    have ihj := ih (j + 1) (by omega)
    cases hasBit with
    | true =>
        simp only [dataFillLoop, reduceIte] at ihj ⊢
        rw [bitStep_spec]
        rcases hnor with hn | hn
        · -- not null: serialize the attribute
          have hnn : ¬ (nulls.getD j ' ' = 'n') := by rw [hn]; decide
          rw [if_neg hnn, fillOne_spec ha (hd hn)]
          have he : (dataUpTo desc vals nulls j).length = instEnd desc vals nulls j := rfl
          rw [he]
          show dataFillLoop true desc vals nulls (j + 1) f
            (dataUpTo desc vals nulls j ++
              padTo (alignBytes (desc.getD j dummyAttr)) (instEnd desc vals nulls j) ++
              attBytes (desc.getD j dummyAttr) (vals.getD j dummyDatum),
             bitmapUpTo nulls (j + 1), bitmaskAfter (j + 1),
             maskUpTo true desc nulls j |||
               (if (desc.getD j dummyAttr).attlen = -1 then 2 else 0)) = _
          rw [← dataUpTo_succ hn, ← maskUpTo_succ_notnull hn]
          exact ihj
        · -- null: bitmap bit stays clear, HEAP_HASNULL recorded
          rw [if_pos hn, ← dataUpTo_succ_null (by rw [hn]; decide),
            ← maskUpTo_succ_null rfl hn]
          exact ihj
    | false =>
        have hn : nulls.getD j ' ' = ' ' := by
          rcases hbit with hb | hall
          · exact Bool.noConfusion hb
          · exact hall j hjlt
        simp only [dataFillLoop, reduceIte] at ihj ⊢
        rw [fillOne_spec ha (hd hn)]
        have he : (dataUpTo desc vals nulls j).length = instEnd desc vals nulls j := rfl
        rw [he]
        show dataFillLoop false desc vals nulls (j + 1) f
          (dataUpTo desc vals nulls j ++
            padTo (alignBytes (desc.getD j dummyAttr)) (instEnd desc vals nulls j) ++
            attBytes (desc.getD j dummyAttr) (vals.getD j dummyDatum),
           [], 128,
           maskUpTo false desc nulls j |||
             (if (desc.getD j dummyAttr).attlen = -1 then 2 else 0)) = _
        rw [← dataUpTo_succ hn, ← maskUpTo_succ_notnull hn]
        exact ihj

/-- `DataFill` writes exactly the layout bytes, the layout bitmap and the
accumulated infomask. -/
theorem DataFill_spec {hasBit : Bool} {desc : List Attr} {vals : List Datum}
    {nulls : List Char} (hwf : wfInput desc vals nulls = true)
    (hbit : hasBit = true ∨ ∀ i < desc.length, nulls.getD i ' ' = ' ') :
    DataFill hasBit desc vals nulls =
      some (dataUpTo desc vals nulls desc.length,
        (if hasBit then bitmapUpTo nulls desc.length else []),
        maskUpTo hasBit desc nulls desc.length) := by
  unfold DataFill
  have h0 := dataFillLoop_spec hwf hbit desc.length 0 (by omega)
  have hz1 : dataUpTo desc vals nulls 0 = [] := rfl
  have hz2 : (if hasBit then bitmapUpTo nulls 0 else []) = [] := by
    cases hasBit <;> rfl
  have hz3 : (if hasBit then bitmaskAfter 0 else 128) = 128 := by
    cases hasBit <;> rfl
  have hz4 : maskUpTo hasBit desc nulls 0 = 0 := rfl
  rw [hz1, hz2, hz3, hz4] at h0
  rw [h0]
  rfl

/-! ## Null bitmap readback -/

theorem getD_append_left {l1 l2 : List Nat} {b : Nat} (h : b < l1.length) :
    (l1 ++ l2).getD b 0 = l1.getD b 0 := by
  simp [List.getD_eq_getElem?_getD, List.getElem?_append_left h]

theorem getD_concat_self (l : List Nat) (x : Nat) : (l ++ [x]).getD l.length 0 = x := by
  simp [List.getD_eq_getElem?_getD, List.getElem?_concat_length]

theorem getD_of_ge {l : List Nat} {b : Nat} (h : l.length ≤ b) : l.getD b 0 = 0 := by
  simp [List.getD_eq_getElem?_getD, List.getElem?_eq_none h]

theorem getD_dropLast {l : List Nat} {b : Nat} (h : b < l.length - 1) :
    l.dropLast.getD b 0 = l.getD b 0 := by
  have hb : b < l.dropLast.length := by
    rw [List.length_dropLast]; omega
  have hb2 : b < l.length := by omega
  rw [List.getD_eq_getElem?_getD, List.getD_eq_getElem?_getD,
    List.getElem?_eq_getElem hb, List.getElem?_eq_getElem hb2]
  simp [List.getElem_dropLast]

theorem getLastD_eq_getD (l : List Nat) (h : l ≠ []) :
    l.getLastD 0 = l.getD (l.length - 1) 0 := by
  conv_lhs => rw [← List.dropLast_concat_getLast h]
  conv_rhs => rw [← List.dropLast_concat_getLast h]
  rw [List.getLastD_concat]
  have hl : (l.dropLast ++ [l.getLast h]).length - 1 = l.dropLast.length := by simp
  rw [hl, getD_concat_self]

theorem bitmapUpTo_length (nulls : List Char) (j : Nat) :
    (bitmapUpTo nulls j).length = (j + 7) / 8 := by
  induction j with
  | zero => rfl
  | succ m ih =>
    have hm8 : m % 8 < 8 := Nat.mod_lt _ (by norm_num)
    conv_lhs => simp only [bitmapUpTo]
    by_cases hz : m % 8 = 0
    · rw [if_pos hz]
      by_cases hn : nulls.getD m ' ' = 'n'
      · rw [if_pos hn]
        simp only [List.length_append, ih, List.length_singleton]
        omega
      · rw [if_neg hn]
        simp only [List.length_append, List.length_dropLast, List.length_append, ih,
          List.length_singleton]
        omega
    · rw [if_neg hz]
      have hm1 : 1 ≤ m := by omega
      have hlen : 1 ≤ (bitmapUpTo nulls m).length := by rw [ih]; omega
      by_cases hn : nulls.getD m ' ' = 'n'
      · rw [if_pos hn, ih]
        omega
      · rw [if_neg hn]
        simp only [List.length_append, List.length_dropLast, ih, List.length_singleton]
        omega

theorem att_isnull_eq (i : Nat) (bits : List Nat) :
    att_isnull i bits = ! (bits.getD (i / 8) 0).testBit (i % 8) := by
  unfold att_isnull
  rw [Nat.shiftLeft_eq, one_mul, Nat.and_two_pow]
  cases hb : (bits.getD (i / 8) 0).testBit (i % 8)
  · simp
  · have hpos : 0 < 2 ^ (i % 8) := Nat.two_pow_pos _
    simp only [Bool.toNat_true, one_mul, Bool.not_true, decide_eq_false_iff_not]
    omega

theorem bitmapUpTo_testBit (nulls : List Char) :
    ∀ j i, ((bitmapUpTo nulls j).getD (i / 8) 0).testBit (i % 8) =
      (decide (i < j) && ! decide (nulls.getD i ' ' = 'n')) := by
  intro j
  induction j with
  | zero =>
    intro i
    simp [bitmapUpTo, Nat.zero_testBit]
  | succ m ih =>
    intro i
    have hm8 : m % 8 < 8 := Nat.mod_lt _ (by norm_num)
    have hi8 : i % 8 < 8 := Nat.mod_lt _ (by norm_num)
    have hieq : i = 8 * (i / 8) + i % 8 := (Nat.div_add_mod i 8).symm ▸ by omega
    have hmeq : m = 8 * (m / 8) + m % 8 := (Nat.div_add_mod m 8).symm ▸ by omega
    have hlen := bitmapUpTo_length nulls m
    conv_lhs => simp only [bitmapUpTo]
    by_cases hz : m % 8 = 0
    · rw [if_pos hz]
      have hplen : (bitmapUpTo nulls m).length = m / 8 := by omega
      by_cases hn : nulls.getD m ' ' = 'n'
      · rw [if_pos hn]
        rcases Nat.lt_trichotomy (i / 8) (m / 8) with hb | hb | hb
        · rw [getD_append_left (by omega)]
          have hij : i < m := by omega
          rw [ih i, decide_eq_true hij, decide_eq_true (by omega : i < m + 1)]
        · rw [hb, ← hplen, getD_concat_self, Nat.zero_testBit]
          rcases Nat.lt_trichotomy i m with him | him | him
          · omega
          · subst him
            rw [decide_eq_true (by omega : i < i + 1), decide_eq_true hn]
            rfl
          · rw [decide_eq_false (by omega : ¬ i < m + 1)]
            rfl
        · rw [getD_of_ge (by simp [hplen]; omega)]
          rw [Nat.zero_testBit, decide_eq_false (by omega : ¬ i < m + 1)]
          rfl
      · rw [if_neg hn, List.dropLast_concat, List.getLastD_concat, Nat.zero_or]
        rcases Nat.lt_trichotomy (i / 8) (m / 8) with hb | hb | hb
        · rw [getD_append_left (by omega)]
          have hij : i < m := by omega
          rw [ih i, decide_eq_true hij, decide_eq_true (by omega : i < m + 1)]
        · rw [hb, ← hplen, getD_concat_self, Nat.shiftLeft_eq, one_mul]
          rcases Nat.lt_trichotomy i m with him | him | him
          · omega
          · subst him
            rw [hz, Nat.pow_zero, decide_eq_true (by omega : i < i + 1),
              decide_eq_false hn]
            decide
          · rw [Nat.testBit_two_pow_of_ne (by omega : m % 8 ≠ i % 8),
              decide_eq_false (by omega : ¬ i < m + 1)]
            rfl
        · rw [getD_of_ge (by simp [hplen]; omega)]
          rw [Nat.zero_testBit, decide_eq_false (by omega : ¬ i < m + 1)]
          rfl
    · rw [if_neg hz]
      have hplen : (bitmapUpTo nulls m).length = m / 8 + 1 := by omega
      by_cases hn : nulls.getD m ' ' = 'n'
      · rw [if_pos hn]
        rcases Nat.lt_trichotomy i m with him | him | him
        · rw [ih i, decide_eq_true (by omega : i < m), decide_eq_true (by omega : i < m + 1)]
        · subst him
          rw [ih i, decide_eq_false (by omega : ¬ i < i),
            decide_eq_true (by omega : i < i + 1), decide_eq_true hn]
          rfl
        · rw [ih i, decide_eq_false (by omega : ¬ i < m),
            decide_eq_false (by omega : ¬ i < m + 1)]
      · rw [if_neg hn]
        have hne : bitmapUpTo nulls m ≠ [] := by
          intro hc
          rw [hc] at hplen
          simp at hplen
        rcases Nat.lt_trichotomy (i / 8) (m / 8) with hb | hb | hb
        · have hlt : i / 8 < (bitmapUpTo nulls m).dropLast.length := by
            rw [List.length_dropLast]; omega
          rw [getD_append_left hlt, getD_dropLast (by omega)]
          have hij : i < m := by omega
          rw [ih i, decide_eq_true hij, decide_eq_true (by omega : i < m + 1)]
        · have hdl : (bitmapUpTo nulls m).dropLast.length = m / 8 := by
            rw [List.length_dropLast]; omega
          rw [hb, ← hdl, getD_concat_self, getLastD_eq_getD _ hne,
            show (bitmapUpTo nulls m).length - 1 = m / 8 from by omega,
            Nat.testBit_lor, Nat.shiftLeft_eq, one_mul]
          rcases Nat.lt_trichotomy i m with him | him | him
          · have hk : i % 8 < m % 8 := by omega
            rw [← hb, ih i, Nat.testBit_two_pow_of_ne (by omega : m % 8 ≠ i % 8),
              decide_eq_true (by omega : i < m), decide_eq_true (by omega : i < m + 1)]
            simp
          · subst him
            rw [ih i, decide_eq_false (by omega : ¬ i < i),
              show i % 8 = i % 8 from rfl, Nat.testBit_two_pow_self,
              decide_eq_true (by omega : i < i + 1), decide_eq_false hn]
            rfl
          · rw [← hb, ih i, Nat.testBit_two_pow_of_ne (by omega : m % 8 ≠ i % 8),
              decide_eq_false (by omega : ¬ i < m),
              decide_eq_false (by omega : ¬ i < m + 1)]
            rfl
        · have hge : ((bitmapUpTo nulls m).dropLast ++
              [(bitmapUpTo nulls m).getLastD 0 ||| 1 <<< (m % 8)]).length ≤ i / 8 := by
            simp only [List.length_append, List.length_dropLast, List.length_singleton]
            omega
          rw [getD_of_ge hge, Nat.zero_testBit,
            decide_eq_false (by omega : ¬ i < m + 1)]
          rfl

/-- Reading the layout bitmap through `att_isnull` recovers the null flags. -/
theorem att_isnull_bitmapUpTo {nulls : List Char} {j i : Nat} (h : i < j) :
    att_isnull i (bitmapUpTo nulls j) = decide (nulls.getD i ' ' = 'n') := by
  rw [att_isnull_eq, bitmapUpTo_testBit, decide_eq_true h]
  cases hd : decide (nulls.getD i ' ' = 'n') <;> rfl

/-! ## Walk support lemmas -/

theorem alignTo_zero {a : Nat} (h : 0 < a) : alignTo a 0 = 0 := by
  unfold alignTo
  rw [Nat.zero_add, Nat.div_eq_of_lt (by omega)]
  ring

theorem alignI_one (n : Int) : alignI 1 n = n := by
  unfold alignI
  norm_num [Int.fdiv_one]

theorem nocacheAlignSwitch_ok {a : Attr} (ha : attrOK a = true) (off : Int) :
    nocacheAlignSwitch a off = some (alignI (alignBytes a) off) := by
  unfold nocacheAlignSwitch
  rcases attrOK_cases ha with ⟨h1, -⟩ | h1 | h1 | h1 | ⟨h1, -⟩
  · rw [if_pos h1, alignBytes_varlena h1]
    by_cases hal : a.attalign = 'd'
    · rw [if_pos hal, if_pos hal]
    · rw [if_neg hal, if_neg hal]
  · rw [if_neg (by omega), if_pos h1, alignBytes_one h1, alignI_one]
  · rw [if_neg (by omega), if_neg (by omega), if_pos h1, alignBytes_two h1]
  · rw [if_neg (by omega), if_neg (by omega), if_neg (by omega), if_pos h1,
      alignBytes_four h1]
  · rw [if_neg (by omega), if_neg (by omega), if_neg (by omega), if_neg (by omega),
      if_neg (by omega), alignBytes_big h1]
    by_cases hal : a.attalign = 'd'
    · rw [if_pos hal, if_pos hal]
    · rw [if_neg hal, if_neg hal]

theorem fixedLenOK_of {a : Attr} (ha : attrOK a = true) (h : ¬ a.attlen = -1) :
    fixedLenOK a = true := by
  unfold fixedLenOK
  rcases attrOK_cases ha with ⟨h1, -⟩ | h1 | h1 | h1 | ⟨h1, -⟩
  · exact absurd h1 h
  all_goals simp [h1]

theorem cleanBefore_zero (desc : List Attr) (nulls : List Char) :
    cleanBefore desc nulls 0 = true := rfl

theorem cleanBefore_succ (desc : List Attr) (nulls : List Char) (j : Nat) :
    cleanBefore desc nulls (j + 1) =
      (cleanBefore desc nulls j &&
        (decide (nulls.getD j ' ' = ' ') && fixedLenOK (desc.getD j dummyAttr))) := by
  unfold cleanBefore
  rw [List.range_succ, List.all_append]
  simp

theorem cleanBefore_at {desc : List Attr} {nulls : List Char} {j : Nat}
    (h : cleanBefore desc nulls j = true) {k : Nat} (hk : k < j) :
    nulls.getD k ' ' = ' ' ∧ fixedLenOK (desc.getD k dummyAttr) = true := by
  unfold cleanBefore at h
  rw [List.all_eq_true] at h
  have := h k (List.mem_range.mpr hk)
  simp only [Bool.and_eq_true, decide_eq_true_eq] at this
  exact this

theorem cleanBefore_of_parts {desc : List Attr} {nulls : List Char} {j : Nat}
    (h : ∀ k < j, nulls.getD k ' ' = ' ' ∧ fixedLenOK (desc.getD k dummyAttr) = true) :
    cleanBefore desc nulls j = true := by
  unfold cleanBefore
  rw [List.all_eq_true]
  intro k hk
  obtain ⟨h1, h2⟩ := h k (List.mem_range.mp hk)
  simp only [Bool.and_eq_true, decide_eq_true_eq]
  exact ⟨h1, h2⟩

theorem cleanBefore_mono {desc : List Attr} {nulls : List Char} {j k : Nat}
    (h : cleanBefore desc nulls j = true) (hk : k ≤ j) :
    cleanBefore desc nulls k = true :=
  cleanBefore_of_parts fun m hm => cleanBefore_at h (by omega)

theorem fixedPrefixOK_of_clean {desc : List Attr} {nulls : List Char} {j : Nat}
    (h : cleanBefore desc nulls j = true) : fixedPrefixOK desc j = true := by
  unfold fixedPrefixOK
  rw [List.all_eq_true]
  intro k hk
  exact (cleanBefore_at h (List.mem_range.mp hk)).2

theorem attSize_fixed {a : Attr} (h : ¬ a.attlen = -1) (v : Datum) :
    attSize a v = a.attlen.toNat := by
  unfold attSize
  rw [if_neg h]

theorem instEnd_eq_fixedEnd {desc : List Attr} {vals : List Datum} {nulls : List Char}
    (hwf : wfInput desc vals nulls = true) {j : Nat}
    (hcl : cleanBefore desc nulls j = true) (hj : j ≤ desc.length) :
    ∀ k ≤ j, instEnd desc vals nulls k = fixedEnd desc k := by
  intro k hk
  induction k with
  | zero => rfl
  | succ m ih =>
    have hm := ih (by omega)
    obtain ⟨hnn, hfl⟩ := cleanBefore_at hcl (show m < j by omega)
    obtain ⟨ha, -, hd⟩ := wf_at hwf (show m < desc.length by omega)
    have hnm : ¬ (desc.getD m dummyAttr).attlen = -1 := by
      unfold fixedLenOK at hfl
      simp only [Bool.or_eq_true, decide_eq_true_eq] at hfl
      omega
    rw [instEnd_succ hnn ha (hd hnn), attSize_fixed hnm]
    unfold fixedEnd instOff
    rw [hm]

theorem instOff_eq_fixedOff {desc : List Attr} {vals : List Datum} {nulls : List Char}
    (hwf : wfInput desc vals nulls = true) {j : Nat}
    (hcl : cleanBefore desc nulls j = true) (hj : j ≤ desc.length) :
    instOff desc vals nulls j = fixedOff desc j := by
  unfold instOff fixedOff
  rw [instEnd_eq_fixedEnd hwf hcl hj j (le_refl j)]

/-! ## Cache validity bookkeeping -/

theorem cacheValid_length {desc : List Attr} {cache : List Int}
    (h : cacheValid desc cache = true) : cache.length = desc.length := by
  unfold cacheValid at h
  simp only [Bool.and_eq_true, decide_eq_true_eq] at h
  exact h.1

theorem cacheValid_at {desc : List Attr} {cache : List Int}
    (h : cacheValid desc cache = true) {j : Nat} (hj : j < desc.length)
    (hpos : 0 < cache.getD j 0) :
    fixedPrefixOK desc j = true ∧ cache.getD j 0 = (fixedOff desc j : Int) := by
  unfold cacheValid at h
  simp only [Bool.and_eq_true, List.all_eq_true, List.mem_range, Bool.or_eq_true,
    Bool.not_eq_true', decide_eq_true_eq] at h
  rcases h.2 j hj with hc | hc
  · rw [decide_eq_false_iff_not] at hc
    exact absurd hpos hc
  · exact ⟨hc.1, hc.2⟩

theorem getD_set_self {cache : List Int} {j : Nat} (hj : j < cache.length) (x : Int) :
    (cache.set j x).getD j 0 = x := by
  rw [List.getD_eq_getElem?_getD, List.getElem?_set_self (by omega)]
  rfl

theorem getD_set_ne {cache : List Int} {j k : Nat} (h : j ≠ k) (x : Int) :
    (cache.set j x).getD k 0 = cache.getD k 0 := by
  rw [List.getD_eq_getElem?_getD, List.getD_eq_getElem?_getD, List.getElem?_set_ne h]

theorem cacheValid_set {desc : List Attr} {cache : List Int}
    (h : cacheValid desc cache = true) {j : Nat} (hj : j < desc.length)
    (hok : fixedPrefixOK desc j = true) :
    cacheValid desc (cache.set j (fixedOff desc j : Int)) = true := by
  have hlen := cacheValid_length h
  unfold cacheValid at h ⊢
  simp only [Bool.and_eq_true, List.all_eq_true, List.mem_range, Bool.or_eq_true,
    Bool.not_eq_true', decide_eq_true_eq] at h ⊢
  refine ⟨by simp [hlen], ?_⟩
  intro k hk
  by_cases hjk : j = k
  · subst hjk
    right
    rw [getD_set_self (by omega)]
    exact ⟨hok, rfl⟩
  · rw [getD_set_ne hjk]
    exact h.2 k hk

theorem cacheValid_set_zero {desc : List Attr} {cache : List Int}
    (h : cacheValid desc cache = true) (hne : 0 < desc.length) :
    cacheValid desc (cache.set 0 0) = true := by
  have hlen := cacheValid_length h
  unfold cacheValid at h ⊢
  simp only [Bool.and_eq_true, List.all_eq_true, List.mem_range, Bool.or_eq_true,
    Bool.not_eq_true', decide_eq_true_eq] at h ⊢
  refine ⟨by simp [hlen], ?_⟩
  intro k hk
  by_cases hk0 : (0 : Nat) = k
  · subst hk0
    left
    rw [getD_set_self (by omega)]
    rfl
  · rw [getD_set_ne hk0]
    exact h.2 k hk

/-! ## Careful-walk correctness -/

theorem heapSlowAdv_spec {desc : List Attr} {vals : List Datum} {nulls : List Char}
    (hwf : wfInput desc vals nulls = true) {j : Nat} (hj : j < desc.length)
    (hn : nulls.getD j ' ' = ' ') (uc : Bool) (cache2 : List Int) :
    heapSlowAdv (desc.getD j dummyAttr) (dataUpTo desc vals nulls desc.length)
      ((instOff desc vals nulls j : Nat) : Int) uc cache2 =
    some (((instEnd desc vals nulls (j + 1) : Nat) : Int),
      (if (desc.getD j dummyAttr).attlen = -1 then false else uc), cache2) := by
  obtain ⟨ha, -, hd⟩ := wf_at hwf hj
  have hv := hd hn
  have hsucc := instEnd_succ hn ha hv
  unfold heapSlowAdv
  rcases attrOK_cases ha with ⟨h1, -⟩ | h1 | h1 | h1 | ⟨h1, -⟩
  · -- varlena
    rw [if_neg (by omega), if_neg (by omega), if_neg (by omega), if_pos h1, if_pos h1]
    cases hvv : vals.getD j dummyDatum with
    | imm w =>
        rw [hvv] at hv
        unfold datumOK at hv
        rw [if_pos h1] at hv
        exact Bool.noConfusion hv
    | byref bs =>
        have hv' := hv
        rw [hvv] at hv'
        simp only [datumOK, h1, reduceIte, Bool.and_eq_true, decide_eq_true_eq] at hv'
        obtain ⟨rest, hdrop⟩ := @drop_dataUpTo desc vals nulls j desc.length hn hj
        rw [hvv] at hdrop
        have hab : attBytes (desc.getD j dummyAttr) (Datum.byref bs) = bs := by
          simp only [attBytes, h1, reduceIte, hv'.1, List.take_length]
        rw [hab] at hdrop
        have hsz : attSize (desc.getD j dummyAttr) (vals.getD j dummyDatum) =
            bs.length := by
          rw [hvv]
          unfold attSize
          rw [if_pos h1]
          exact hv'.1
        rw [hsz] at hsucc
        have hbound : instOff desc vals nulls j + bs.length ≤
            instEnd desc vals nulls desc.length := by
          rw [← hsucc]
          exact instEnd_mono (by omega)
        have hdl : (dataUpTo desc vals nulls desc.length).length =
            instEnd desc vals nulls desc.length := rfl
        unfold varsizeAt
        rw [if_pos ⟨by positivity, by rw [Int.toNat_ofNat]; omega⟩]
        rw [Int.toNat_ofNat, hdrop, VARSIZE_append hv'.2, hv'.1, Option.map_some']
        rw [hsucc]
        push_cast
        ring_nf
  · rw [if_pos h1, if_neg (by omega : ¬ (desc.getD j dummyAttr).attlen = -1),
      hsucc, attSize_fixed (by omega) _, h1]
    push_cast
    norm_num
  · rw [if_neg (by omega), if_pos h1,
      if_neg (by omega : ¬ (desc.getD j dummyAttr).attlen = -1),
      hsucc, attSize_fixed (by omega) _, h1]
    push_cast
    norm_num
  · rw [if_neg (by omega), if_neg (by omega), if_pos h1,
      if_neg (by omega : ¬ (desc.getD j dummyAttr).attlen = -1),
      hsucc, attSize_fixed (by omega) _, h1]
    push_cast
    norm_num
  · rw [if_neg (by omega), if_neg (by omega), if_neg (by omega),
      if_neg (by omega : ¬ (desc.getD j dummyAttr).attlen = -1),
      if_neg (by omega : ¬ (desc.getD j dummyAttr).attlen = -1),
      hsucc, attSize_fixed (by omega) _]
    have hcast : (((desc.getD j dummyAttr).attlen.toNat : Nat) : Int) =
        (desc.getD j dummyAttr).attlen := Int.toNat_of_nonneg (by omega)
    push_cast
    rw [hcast]

theorem heapSlowStep_spec {desc : List Attr} {vals : List Datum} {nulls : List Char}
    (hwf : wfInput desc vals nulls = true) {noNulls : Bool} {bits : List Nat}
    (hT : noNulls = true → ∀ i < desc.length, nulls.getD i ' ' = ' ')
    (hF : noNulls = false → ∀ i < desc.length,
      att_isnull i bits = decide (nulls.getD i ' ' = 'n'))
    {j : Nat} (hj : j < desc.length) {cache : List Int} {usecache : Bool}
    (hc : cacheValid desc cache = true)
    (hu : usecache = cleanBefore desc nulls j) :
    ∃ cache2,
      heapSlowStep noNulls bits desc (dataUpTo desc vals nulls desc.length) j
        (((instEnd desc vals nulls j : Nat) : Int), usecache, cache) =
      some (((instEnd desc vals nulls (j + 1) : Nat) : Int),
        cleanBefore desc nulls (j + 1), cache2) ∧
      cacheValid desc cache2 = true := by
  obtain ⟨ha, hnor, hd⟩ := wf_at hwf hj
  simp only [heapSlowStep]
  rcases hnor with hn | hn
  · -- attribute j is not null
    have hcond : ¬ (¬ noNulls = true ∧ att_isnull j bits = true) := by
      cases hnn : noNulls
      · intro hcon
        rw [hF hnn j hj, hn] at hcon
        exact absurd hcon.2 (by decide)
      · intro hcon
        exact hcon.1 rfl
    rw [if_neg hcond, nocacheAlignSwitch_ok ha, Option.some_bind]
    have hoff1 : alignI (alignBytes (desc.getD j dummyAttr))
        ((instEnd desc vals nulls j : Nat) : Int) =
        ((instOff desc vals nulls j : Nat) : Int) := by
      rw [alignI_coe (alignBytes_pos _)]
      rfl
    rw [hoff1]
    have hucres : (if (desc.getD j dummyAttr).attlen = -1 then false else usecache) =
        cleanBefore desc nulls (j + 1) := by
      rw [cleanBefore_succ, ← hu, decide_eq_true hn]
      by_cases hm : (desc.getD j dummyAttr).attlen = -1
      · rw [if_pos hm]
        have hfl : fixedLenOK (desc.getD j dummyAttr) = false := by
          unfold fixedLenOK
          rw [hm]
          decide
        rw [hfl]
        simp
      · rw [if_neg hm, fixedLenOK_of ha hm]
        simp
    by_cases hhit : usecache = true ∧ cache.getD j 0 > 0
    · rw [if_pos hhit]
      have hclean : cleanBefore desc nulls j = true := by
        rw [← hu]; exact hhit.1
      obtain ⟨hfp, hcval⟩ := cacheValid_at hc hj hhit.2
      have hoffeq : cache.getD j 0 = ((instOff desc vals nulls j : Nat) : Int) := by
        rw [hcval, instOff_eq_fixedOff hwf hclean (by omega)]
      rw [hoffeq, heapSlowAdv_spec hwf hj hn _ _]
      refine ⟨cache, ?_, hc⟩
      by_cases hm : (desc.getD j dummyAttr).attlen = -1
      · simp only [hm, reduceIte] at hucres ⊢
        rw [hucres]
      · simp only [if_neg hm] at hucres ⊢
        rw [hucres]
    · rw [if_neg hhit, heapSlowAdv_spec hwf hj hn _ _, hucres]
      cases husecache : usecache with
      | true =>
          rw [if_pos rfl]
          have hclean : cleanBefore desc nulls j = true := hu.symm.trans husecache
          have hfo : ((instOff desc vals nulls j : Nat) : Int) =
              ((fixedOff desc j : Nat) : Int) := by
            rw [instOff_eq_fixedOff hwf hclean (by omega)]
          rw [hfo]
          exact ⟨_, rfl, cacheValid_set hc hj (fixedPrefixOK_of_clean hclean)⟩
      | false =>
          rw [if_neg (show ¬ (false = true) by decide)]
          exact ⟨cache, rfl, hc⟩
  · -- attribute j is null
    have hnn : noNulls = false := by
      cases hnb : noNulls
      · rfl
      · have := hT hnb j hj
        rw [hn] at this
        exact absurd this (by decide)
    have hcond : ¬ noNulls = true ∧ att_isnull j bits = true := by
      refine ⟨by rw [hnn]; exact Bool.noConfusion, ?_⟩
      rw [hF hnn j hj, hn]
      decide
    rw [if_pos hcond]
    refine ⟨cache, ?_, hc⟩
    have hnne : nulls.getD j ' ' ≠ ' ' := by rw [hn]; decide
    rw [instEnd_succ_null hnne, cleanBefore_succ, ← hu]
    have hdn : decide (nulls.getD j ' ' = ' ') = false := by
      rw [hn]; decide
    rw [hdn]
    simp

theorem heapSlowLoop_spec {desc : List Attr} {vals : List Datum} {nulls : List Char}
    (hwf : wfInput desc vals nulls = true) {noNulls : Bool} {bits : List Nat}
    (hT : noNulls = true → ∀ i < desc.length, nulls.getD i ' ' = ' ')
    (hF : noNulls = false → ∀ i < desc.length,
      att_isnull i bits = decide (nulls.getD i ' ' = 'n'))
    (fuel : Nat) :
    ∀ (j : Nat), j + fuel ≤ desc.length → ∀ (cache : List Int) (usecache : Bool),
      cacheValid desc cache = true → usecache = cleanBefore desc nulls j →
      ∃ cache2,
        heapSlowLoop noNulls bits desc (dataUpTo desc vals nulls desc.length) j fuel
          (((instEnd desc vals nulls j : Nat) : Int), usecache, cache) =
        some (((instEnd desc vals nulls (j + fuel) : Nat) : Int),
          cleanBefore desc nulls (j + fuel), cache2) ∧
        cacheValid desc cache2 = true := by
  induction fuel with
  | zero =>
      intro j _ cache usecache hc hu
      refine ⟨cache, ?_, hc⟩
      simp only [heapSlowLoop, Nat.add_zero]
      rw [hu]
  | succ fuel ih =>
      intro j hjf cache usecache hc hu
      obtain ⟨cache1, hstep, hc1⟩ :=
        heapSlowStep_spec hwf hT hF (by omega : j < desc.length) hc hu
      obtain ⟨cache2, hloop, hc2⟩ :=
        ih (j + 1) (by omega) cache1 (cleanBefore desc nulls (j + 1)) hc1 rfl
      refine ⟨cache2, ?_, hc2⟩
      simp only [heapSlowLoop]
      rw [hstep, Option.some_bind, hloop]
      have harith : j + 1 + fuel = j + (fuel + 1) := by omega
      rw [harith]

theorem offFetch_coe (a : Attr) (buf : List Nat) (n : Nat) :
    offFetch a buf ((n : Nat) : Int) = fetchatt a buf n := by
  unfold offFetch
  rw [if_pos (by positivity), Int.toNat_ofNat]

theorem heapSlowPath_spec {desc : List Attr} {vals : List Datum} {nulls : List Char}
    (hwf : wfInput desc vals nulls = true) {tup : HeapTuple}
    (hdata : tup.data = dataUpTo desc vals nulls desc.length)
    (hT : HeapTupleNoNulls tup = true → ∀ i < desc.length, nulls.getD i ' ' = ' ')
    (hF : HeapTupleNoNulls tup = false → ∀ i < desc.length,
      att_isnull i tup.t_bits = decide (nulls.getD i ' ' = 'n'))
    {an : Nat} (han : an < desc.length) (hn : nulls.getD an ' ' = ' ')
    {cache : List Int} (hc : cacheValid desc cache = true) :
    ∃ cache2,
      heapSlowPath tup desc an cache = some (vals.getD an dummyDatum, cache2) ∧
      cacheValid desc cache2 = true := by
  obtain ⟨ha, -, -⟩ := wf_at hwf han
  obtain ⟨cache2, hloop, hc2⟩ :=
    heapSlowLoop_spec hwf hT hF an 0 (by omega) cache true hc (by rw [cleanBefore_zero])
  refine ⟨cache2, ?_, hc2⟩
  unfold heapSlowPath
  rw [hdata]
  have hz : ((instEnd desc vals nulls 0 : Nat) : Int) = (0 : Int) := rfl
  rw [← hz, hloop, Option.some_bind, nocacheAlignSwitch_ok ha, Option.some_bind]
  have hoffF : alignI (alignBytes (desc.getD an dummyAttr))
      ((instEnd desc vals nulls (0 + an) : Nat) : Int) =
      ((instOff desc vals nulls an : Nat) : Int) := by
    rw [Nat.zero_add, alignI_coe (alignBytes_pos _)]
    rfl
  rw [hoffF, offFetch_coe, fetchatt_instOff hwf han hn (by omega)]
  rfl

/-! ## Fast-path correctness -/

theorem fixedLenOK_pos {a : Attr} (h : fixedLenOK a = true) : 1 ≤ a.attlen := by
  unfold fixedLenOK at h
  simp only [Bool.or_eq_true, decide_eq_true_eq] at h
  omega

theorem fixedPrefixOK_succ {desc : List Attr} {j : Nat}
    (h1 : fixedPrefixOK desc j = true) (h2 : fixedLenOK (desc.getD j dummyAttr) = true) :
    fixedPrefixOK desc (j + 1) = true := by
  unfold fixedPrefixOK at h1 ⊢
  rw [List.range_succ, List.all_append, Bool.and_eq_true]
  refine ⟨h1, ?_⟩
  simp only [List.all_cons, List.all_nil, Bool.and_true]
  exact h2

theorem fixedOff_zero (desc : List Attr) : fixedOff desc 0 = 0 :=
  alignTo_zero (alignBytes_pos _)

theorem firstUncached_spec (cache : List Int) :
    ∀ (fuel s m : Nat), s ≤ m → m ≤ s + fuel → ¬ cache.getD m 0 > 0 →
      s ≤ firstUncached cache fuel s ∧ firstUncached cache fuel s ≤ m ∧
      ¬ cache.getD (firstUncached cache fuel s) 0 > 0 ∧
      ∀ k, s ≤ k → k < firstUncached cache fuel s → cache.getD k 0 > 0 := by
  intro fuel
  induction fuel with
  | zero =>
      intro s m h1 h2 h3
      have hm : m = s := by omega
      subst hm
      simp only [firstUncached]
      exact ⟨le_refl m, le_refl m, h3, fun k hk1 hk2 => absurd hk2 (by omega)⟩
  | succ fuel ih =>
      intro s m h1 h2 h3
      simp only [firstUncached]
      by_cases hs : cache.getD s 0 > 0
      · rw [if_pos hs]
        have hsm : s ≠ m := fun he => h3 (he ▸ hs)
        obtain ⟨a1, a2, a3, a4⟩ := ih (s + 1) m (by omega) (by omega) h3
        refine ⟨by omega, a2, a3, fun k hk1 hk2 => ?_⟩
        by_cases hks : k = s
        · rw [hks]; exact hs
        · exact a4 k (by omega) hk2
      · rw [if_neg hs]
        exact ⟨le_refl s, h1, hs, fun k hk1 hk2 => absurd hk2 (by omega)⟩

theorem heapFastLoop_spec {desc : List Attr} {vals : List Datum} {nulls : List Char}
    (hwf : wfInput desc vals nulls = true) :
    ∀ (fuel j : Nat) (cache : List Int),
      j + fuel < desc.length →
      (∀ k, j ≤ k → k < j + fuel → fixedLenOK (desc.getD k dummyAttr) = true) →
      fixedPrefixOK desc j = true →
      cacheValid desc cache = true →
      ∃ cache1,
        heapFastLoop desc j (fuel + 1) ((fixedEnd desc j : Nat) : Int) cache =
          some cache1 ∧
        cache1.getD (j + fuel) 0 = ((fixedOff desc (j + fuel) : Nat) : Int) ∧
        cacheValid desc cache1 = true := by
  intro fuel
  induction fuel with
  | zero =>
      intro j cache hlen _ hfp hc
      have ha : attrOK (desc.getD j dummyAttr) = true := (wf_at hwf (by omega)).1
      refine ⟨cache.set j ((fixedOff desc j : Nat) : Int), ?_, ?_, ?_⟩
      · simp only [heapFastLoop]
        rw [nocacheAlignSwitch_ok ha, alignI_coe (alignBytes_pos _), Option.some_bind]
        rfl
      · rw [Nat.add_zero, getD_set_self (by rw [cacheValid_length hc]; omega)]
      · exact cacheValid_set hc (by omega) hfp
  | succ fuel ih =>
      intro j cache hlen hfl hfp hc
      have ha : attrOK (desc.getD j dummyAttr) = true := (wf_at hwf (by omega)).1
      have hflj : fixedLenOK (desc.getD j dummyAttr) = true :=
        hfl j (le_refl j) (by omega)
      simp only [heapFastLoop]
      rw [nocacheAlignSwitch_ok ha, alignI_coe (alignBytes_pos _), Option.some_bind]
      have heq : ((alignTo (alignBytes (desc.getD j dummyAttr)) (fixedEnd desc j) :
          Nat) : Int) = ((fixedOff desc j : Nat) : Int) := rfl
      rw [heq]
      have hoff : ((fixedOff desc j : Nat) : Int) + (desc.getD j dummyAttr).attlen =
          ((fixedEnd desc (j + 1) : Nat) : Int) := by
        have hfe : fixedEnd desc (j + 1) =
            fixedOff desc j + (desc.getD j dummyAttr).attlen.toNat := rfl
        have hlp := fixedLenOK_pos hflj
        rw [hfe]
        push_cast
        rw [Int.toNat_of_nonneg (by omega)]
      rw [hoff]
      obtain ⟨cache1, hrun, hget, hc1⟩ :=
        ih (j + 1) (cache.set j ((fixedOff desc j : Nat) : Int)) (by omega)
          (fun k hk1 hk2 => hfl k (by omega) (by omega))
          (fixedPrefixOK_succ hfp hflj)
          (cacheValid_set hc (by omega) hfp)
      refine ⟨cache1, hrun, ?_, hc1⟩
      have harith : j + 1 + fuel = j + (fuel + 1) := by omega
      rw [harith] at hget
      exact hget

theorem heapFastPath_spec {desc : List Attr} {vals : List Datum} {nulls : List Char}
    (hwf : wfInput desc vals nulls = true) {tup : HeapTuple}
    (hdata : tup.data = dataUpTo desc vals nulls desc.length)
    {an : Nat} (han : an < desc.length) (h1 : 1 ≤ an)
    (hn : nulls.getD an ' ' = ' ')
    (hclean : cleanBefore desc nulls an = true)
    {cache : List Int} (hc : cacheValid desc cache = true)
    (hmiss : ¬ cache.getD an 0 > 0) :
    ∃ cache2,
      heapFastPath tup desc an cache = some (vals.getD an dummyDatum, cache2) ∧
      cacheValid desc cache2 = true := by
  have hlen0 := cacheValid_length hc
  have hc0 : cacheValid desc (cache.set 0 0) = true :=
    cacheValid_set_zero hc (by omega)
  have hmiss0 : ¬ (cache.set 0 0).getD an 0 > 0 := by
    rw [getD_set_ne (by omega)]
    exact hmiss
  obtain ⟨hj1, hjan, hjun, hjfilled⟩ :=
    firstUncached_spec (cache.set 0 0) an 1 an h1 (by omega) hmiss0
  simp only [heapFastPath]
  set j := firstUncached (cache.set 0 0) an 1 with hjdef
  have hprev : (cache.set 0 0).getD (j - 1) 0 = ((fixedOff desc (j - 1) : Nat) : Int) := by
    by_cases hj1' : j = 1
    · rw [hj1']
      have h00 : (cache.set 0 0).getD 0 0 = 0 :=
        getD_set_self (by rw [hlen0]; omega) 0
      rw [h00, fixedOff_zero desc]
      rfl
    · have hpos : (cache.set 0 0).getD (j - 1) 0 > 0 :=
        hjfilled (j - 1) (by omega) (by omega)
      exact (cacheValid_at hc0 (by omega) hpos).2
  have hflprev : fixedLenOK (desc.getD (j - 1) dummyAttr) = true :=
    (cleanBefore_at hclean (by omega : j - 1 < an)).2
  have hoff0 : (cache.set 0 0).getD (j - 1) 0 + (desc.getD (j - 1) dummyAttr).attlen =
      ((fixedEnd desc j : Nat) : Int) := by
    rw [hprev]
    have hfe : fixedEnd desc ((j - 1) + 1) =
        fixedOff desc (j - 1) + (desc.getD (j - 1) dummyAttr).attlen.toNat := rfl
    have hj' : (j - 1) + 1 = j := by omega
    rw [hj'] at hfe
    have hlp := fixedLenOK_pos hflprev
    rw [hfe]
    push_cast
    rw [Int.toNat_of_nonneg (by omega)]
  rw [hoff0]
  have hfuel : an + 1 - j = (an - j) + 1 := by omega
  rw [hfuel]
  obtain ⟨cache1, hrun, hget, hc1⟩ :=
    heapFastLoop_spec hwf (an - j) j (cache.set 0 0) (by omega)
      (fun k hk1 hk2 => (cleanBefore_at hclean (by omega : k < an)).2)
      (fixedPrefixOK_of_clean (cleanBefore_mono hclean (by omega)))
      hc0
  have hjan' : j + (an - j) = an := by omega
  rw [hjan'] at hget
  rw [hrun, Option.some_bind, hget, hdata]
  have hio : fixedOff desc an = instOff desc vals nulls an :=
    (instOff_eq_fixedOff hwf hclean (by omega)).symm
  rw [hio, offFetch_coe, fetchatt_instOff hwf han hn (by omega)]
  exact ⟨cache1, rfl, hc1⟩

/-! ## Infomask bits of a formed tuple -/

theorem and_flag_eq (m k : Nat) : decide (m &&& 2 ^ k = 0) = ! m.testBit k := by
  rw [Nat.and_two_pow]
  cases hb : m.testBit k
  · simp
  · have hpos : 0 < 2 ^ k := Nat.two_pow_pos _
    simp only [Bool.toNat_true, one_mul, Bool.not_true, decide_eq_false_iff_not]
    omega

theorem HeapTupleNoNulls_eq (tup : HeapTuple) :
    HeapTupleNoNulls tup = ! tup.t_infomask.testBit 0 := by
  unfold HeapTupleNoNulls HEAP_HASNULL
  have h : (1 : Nat) = 2 ^ 0 := rfl
  rw [h, and_flag_eq]

theorem HeapTupleAllFixed_eq (tup : HeapTuple) :
    HeapTupleAllFixed tup = ! tup.t_infomask.testBit 1 := by
  unfold HeapTupleAllFixed HEAP_HASVARLENA
  have h : (2 : Nat) = 2 ^ 1 := rfl
  rw [h, and_flag_eq]

theorem or_xmax_testBit (m k : Nat) (hk : k < 11) :
    (m ||| HEAP_XMAX_INVALID).testBit k = m.testBit k := by
  rw [Nat.testBit_lor]
  have h2048 : HEAP_XMAX_INVALID = 2 ^ 11 := rfl
  rw [h2048, Nat.testBit_two_pow_of_ne (by omega), Bool.or_false]

theorem maskUpTo_testBit_zero (hasBit : Bool) (desc : List Attr) (nulls : List Char)
    (j : Nat) :
    (maskUpTo hasBit desc nulls j).testBit 0 =
      (hasBit && (List.range j).any fun i => decide (nulls.getD i ' ' = 'n')) := by
  induction j with
  | zero => simp [maskUpTo_zero, Nat.zero_testBit]
  | succ j ih =>
      rw [List.range_succ, List.any_append, List.any_cons, List.any_nil, Bool.or_false]
      conv_lhs => unfold maskUpTo
      by_cases h1 : hasBit = true ∧ nulls.getD j ' ' = 'n'
      · rw [if_pos h1, Nat.testBit_lor, ih, h1.1, decide_eq_true h1.2]
        cases hany : ((List.range j).any fun i => decide (nulls.getD i ' ' = 'n')) <;>
          decide
      · by_cases h2 : nulls.getD j ' ' = ' ' ∧ (desc.getD j dummyAttr).attlen = -1
        · rw [if_neg h1, if_pos h2, Nat.testBit_lor, ih, h2.1]
          cases hb : hasBit <;>
            cases hany : ((List.range j).any fun i => decide (nulls.getD i ' ' = 'n')) <;>
              decide
        · rw [if_neg h1, if_neg h2, ih]
          by_cases hb : hasBit = true
          · have hne : ¬ nulls.getD j ' ' = 'n' := fun hc => h1 ⟨hb, hc⟩
            rw [hb, decide_eq_false hne]
            cases hany : ((List.range j).any fun i => decide (nulls.getD i ' ' = 'n')) <;>
              decide
          · rw [Bool.not_eq_true] at hb
            rw [hb, Bool.false_and, Bool.false_and]

theorem maskUpTo_testBit_one (hasBit : Bool) (desc : List Attr) (nulls : List Char)
    (j : Nat) :
    (maskUpTo hasBit desc nulls j).testBit 1 =
      ((List.range j).any fun i =>
        decide (nulls.getD i ' ' = ' ') && decide ((desc.getD i dummyAttr).attlen = -1)) := by
  induction j with
  | zero => simp [maskUpTo_zero, Nat.zero_testBit]
  | succ j ih =>
      rw [List.range_succ, List.any_append, List.any_cons, List.any_nil, Bool.or_false]
      conv_lhs => unfold maskUpTo
      by_cases h1 : hasBit = true ∧ nulls.getD j ' ' = 'n'
      · have hne : ¬ nulls.getD j ' ' = ' ' := by rw [h1.2]; decide
        rw [if_pos h1, Nat.testBit_lor, ih, decide_eq_false hne, Bool.false_and,
          Bool.or_false, (by decide : Nat.testBit 1 1 = false), Bool.or_false]
      · by_cases h2 : nulls.getD j ' ' = ' ' ∧ (desc.getD j dummyAttr).attlen = -1
        · rw [if_neg h1, if_pos h2, Nat.testBit_lor, ih, decide_eq_true h2.1,
            decide_eq_true h2.2]
          cases hany : ((List.range j).any fun i =>
              decide (nulls.getD i ' ' = ' ') &&
                decide ((desc.getD i dummyAttr).attlen = -1)) <;>
            decide
        · rw [if_neg h1, if_neg h2, ih]
          have hlast : (decide (nulls.getD j ' ' = ' ') &&
              decide ((desc.getD j dummyAttr).attlen = -1)) = false := by
            by_cases ha : nulls.getD j ' ' = ' '
            · have hbn : ¬ (desc.getD j dummyAttr).attlen = -1 := fun hc => h2 ⟨ha, hc⟩
              rw [decide_eq_true ha, decide_eq_false hbn]
              decide
            · rw [decide_eq_false ha, Bool.false_and]
          rw [hlast, Bool.or_false]

theorem hasnull_eq {desc : List Attr} {vals : List Datum} {nulls : List Char}
    (hwf : wfInput desc vals nulls = true) :
    ((List.range desc.length).any fun i => decide (nulls.getD i ' ' ≠ ' ')) =
    ((List.range desc.length).any fun i => decide (nulls.getD i ' ' = 'n')) := by
  rw [Bool.eq_iff_iff, List.any_eq_true, List.any_eq_true]
  constructor
  · rintro ⟨i, hi, h⟩
    refine ⟨i, hi, ?_⟩
    rw [decide_eq_true_eq] at h ⊢
    rcases (wf_at hwf (List.mem_range.mp hi)).2.1 with h' | h'
    · exact absurd h' h
    · exact h'
  · rintro ⟨i, hi, h⟩
    refine ⟨i, hi, ?_⟩
    rw [decide_eq_true_eq] at h ⊢
    rw [h]
    decide

theorem fixedPrefixOK_at {desc : List Attr} {j : Nat}
    (h : fixedPrefixOK desc j = true) {k : Nat} (hk : k < j) :
    fixedLenOK (desc.getD k dummyAttr) = true := by
  unfold fixedPrefixOK at h
  rw [List.all_eq_true] at h
  exact h k (List.mem_range.mpr hk)

theorem heap_formtuple_fields {desc : List Attr} {vals : List Datum} {nulls : List Char}
    (hwf : wfInput desc vals nulls = true) (hcap : desc.length ≤ MaxHeapAttributeNumber) :
    ∃ T, heap_formtuple desc vals nulls = some T ∧
      T.data = dataUpTo desc vals nulls desc.length ∧
      T.t_natts = desc.length ∧
      T.t_infomask =
        (maskUpTo ((List.range desc.length).any fun i => decide (nulls.getD i ' ' ≠ ' '))
          desc nulls desc.length ||| HEAP_XMAX_INVALID) ∧
      T.t_bits =
        (if ((List.range desc.length).any fun i => decide (nulls.getD i ' ' ≠ ' ')) = true
         then bitmapUpTo nulls desc.length else []) := by
  have hbit : ((List.range desc.length).any fun i =>
        decide (nulls.getD i ' ' ≠ ' ')) = true ∨
      ∀ i < desc.length, nulls.getD i ' ' = ' ' := by
    by_cases hb : ((List.range desc.length).any fun i =>
        decide (nulls.getD i ' ' ≠ ' ')) = true
    · exact Or.inl hb
    · right
      intro i hi
      rw [Bool.not_eq_true, List.any_eq_false] at hb
      have hbi := hb i (List.mem_range.mpr hi)
      rw [decide_eq_true_eq] at hbi
      exact not_not.mp hbi
  simp only [heap_formtuple]
  rw [if_neg (by omega), ComputeDataSize_spec hwf, Option.some_bind,
    DataFill_spec hwf hbit, Option.map_some']
  exact ⟨_, rfl, rfl, rfl, rfl, rfl⟩

/-! ## `nocachegetattr` and `fastgetattr` round trip -/

theorem cacheHit_fetch {desc : List Attr} {vals : List Datum} {nulls : List Char}
    (hwf : wfInput desc vals nulls = true) {tup : HeapTuple}
    (hdata : tup.data = dataUpTo desc vals nulls desc.length)
    {an : Nat} (han : an < desc.length) (hn : nulls.getD an ' ' = ' ')
    (hpre : ∀ k, k < an → nulls.getD k ' ' = ' ')
    {cache : List Int} (hc : cacheValid desc cache = true)
    (hhit : cache.getD an 0 > 0) :
    offFetch (desc.getD an dummyAttr) tup.data (cache.getD an 0) =
      some (vals.getD an dummyDatum) := by
  obtain ⟨hfp, hval⟩ := cacheValid_at hc han hhit
  have hclean : cleanBefore desc nulls an = true :=
    cleanBefore_of_parts fun k hk => ⟨hpre k hk, fixedPrefixOK_at hfp hk⟩
  rw [hval, hdata]
  have hio : fixedOff desc an = instOff desc vals nulls an :=
    (instOff_eq_fixedOff hwf hclean (by omega)).symm
  rw [hio, offFetch_coe, fetchatt_instOff hwf han hn (by omega)]

theorem fetch_first {desc : List Attr} {vals : List Datum} {nulls : List Char}
    (hwf : wfInput desc vals nulls = true) {tup : HeapTuple}
    (hdata : tup.data = dataUpTo desc vals nulls desc.length)
    (hlen : 0 < desc.length) (hn : nulls.getD 0 ' ' = ' ') :
    fetchatt (desc.getD 0 dummyAttr) tup.data 0 = some (vals.getD 0 dummyDatum) := by
  have hz : instOff desc vals nulls 0 = 0 := by
    unfold instOff
    exact alignTo_zero (alignBytes_pos _)
  have hf := fetchatt_instOff hwf hlen hn hlen
  rw [hz] at hf
  rw [hdata]
  exact hf

theorem nocachegetattr_spec {desc : List Attr} {vals : List Datum} {nulls : List Char}
    (hwf : wfInput desc vals nulls = true) {tup : HeapTuple}
    (hdata : tup.data = dataUpTo desc vals nulls desc.length)
    (hT : HeapTupleNoNulls tup = true → ∀ i < desc.length, nulls.getD i ' ' = ' ')
    (hF : HeapTupleNoNulls tup = false → ∀ i < desc.length,
      att_isnull i tup.t_bits = decide (nulls.getD i ' ' = 'n'))
    (hAF : HeapTupleAllFixed tup = true → ∀ i < desc.length,
      nulls.getD i ' ' = ' ' → (desc.getD i dummyAttr).attlen ≠ -1)
    {attnum : Nat} (h1 : 1 ≤ attnum) (h2 : attnum ≤ desc.length)
    (hn : nulls.getD (attnum - 1) ' ' = ' ')
    {cache : List Int} (hc : cacheValid desc cache = true) :
    ∃ cache2,
      nocachegetattr tup attnum desc cache =
        some (vals.getD (attnum - 1) dummyDatum, cache2) ∧
      cacheValid desc cache2 = true := by
  have han : attnum - 1 < desc.length := by omega
  simp only [nocachegetattr]
  by_cases hs1 : (if HeapTupleNoNulls tup = true then false
      else (List.range (attnum - 1)).any fun i => att_isnull i tup.t_bits) = true
  · rw [if_pos hs1]
    exact heapSlowPath_spec hwf hdata hT hF han hn hc
  · rw [if_neg hs1]
    have hpre : ∀ k, k < attnum - 1 → nulls.getD k ' ' = ' ' := by
      intro k hk
      cases hnn : HeapTupleNoNulls tup
      · rw [hnn, if_neg (show ¬ (false = true) by decide)] at hs1
        rw [Bool.not_eq_true, List.any_eq_false] at hs1
        have hk' := hs1 k (List.mem_range.mpr hk)
        rw [hF hnn k (by omega)] at hk'
        rw [decide_eq_true_eq] at hk'
        rcases (wf_at hwf (show k < desc.length by omega)).2.1 with h' | h'
        · exact h'
        · exact absurd h' hk'
      · exact hT hnn k (by omega)
    by_cases hhit : cache.getD (attnum - 1) 0 > 0
    · rw [if_pos hhit, cacheHit_fetch hwf hdata han hn hpre hc hhit, Option.map_some']
      exact ⟨cache, rfl, hc⟩
    · rw [if_neg hhit]
      by_cases ha0 : attnum - 1 = 0
      · have hn0 : nulls.getD 0 ' ' = ' ' := by rw [← ha0]; exact hn
        rw [if_pos ha0, ha0, fetch_first hwf hdata (by omega) hn0, Option.map_some']
        exact ⟨cache, rfl, hc⟩
      · rw [if_neg ha0]
        by_cases hs2 : (if ¬ HeapTupleAllFixed tup = true
            then (List.range (attnum - 1)).any fun j =>
              decide ((desc.getD j dummyAttr).attlen < 1)
            else false) = true
        · rw [if_pos hs2]
          exact heapSlowPath_spec hwf hdata hT hF han hn hc
        · rw [if_neg hs2]
          have hflk : ∀ k, k < attnum - 1 → fixedLenOK (desc.getD k dummyAttr) = true := by
            intro k hk
            have hak : attrOK (desc.getD k dummyAttr) = true :=
              (wf_at hwf (show k < desc.length by omega)).1
            by_cases haf : HeapTupleAllFixed tup = true
            · exact fixedLenOK_of hak (hAF haf k (by omega) (hpre k hk))
            · rw [if_pos haf] at hs2
              rw [Bool.not_eq_true, List.any_eq_false] at hs2
              have hk' := hs2 k (List.mem_range.mpr hk)
              rw [decide_eq_true_eq] at hk'
              exact fixedLenOK_of hak (by omega)
          have hclean : cleanBefore desc nulls (attnum - 1) = true :=
            cleanBefore_of_parts fun k hk => ⟨hpre k hk, hflk k hk⟩
          exact heapFastPath_spec hwf hdata han (by omega) hn hclean hc hhit

theorem fastgetattr_master {desc : List Attr} {vals : List Datum} {nulls : List Char}
    (hwf : wfInput desc vals nulls = true)
    (hcap : desc.length ≤ MaxHeapAttributeNumber) {T : HeapTuple}
    (hT : heap_formtuple desc vals nulls = some T)
    {attnum : Nat} (h1 : 1 ≤ attnum) (h2 : attnum ≤ desc.length)
    {cache : List Int} (hc : cacheValid desc cache = true) :
    ∃ cache2,
      fastgetattr T attnum desc cache =
        some ((if nulls.getD (attnum - 1) ' ' = 'n' then (none, true)
          else (some (vals.getD (attnum - 1) dummyDatum), false)), cache2) ∧
      cacheValid desc cache2 = true := by
  obtain ⟨T', hT', hdata, hnatts, hinfo, hbits⟩ := heap_formtuple_fields hwf hcap
  rw [hT] at hT'
  obtain rfl := Option.some.inj hT'
  have han : attnum - 1 < desc.length := by omega
  have hNNb : HeapTupleNoNulls T =
      ! ((List.range desc.length).any fun i => decide (nulls.getD i ' ' = 'n')) := by
    rw [HeapTupleNoNulls_eq, hinfo, or_xmax_testBit _ _ (by omega),
      maskUpTo_testBit_zero, hasnull_eq hwf]
    cases hx : ((List.range desc.length).any fun i => decide (nulls.getD i ' ' = 'n')) <;>
      decide
  have hTfact : HeapTupleNoNulls T = true → ∀ i < desc.length,
      nulls.getD i ' ' = ' ' := by
    intro hnn i hi
    rw [hNNb, Bool.not_eq_true'] at hnn
    rw [List.any_eq_false] at hnn
    have hx := hnn i (List.mem_range.mpr hi)
    rw [decide_eq_true_eq] at hx
    rcases (wf_at hwf hi).2.1 with h' | h'
    · exact h'
    · exact absurd h' hx
  have hFfact : HeapTupleNoNulls T = false → ∀ i < desc.length,
      att_isnull i T.t_bits = decide (nulls.getD i ' ' = 'n') := by
    intro hnn i hi
    have hanyN : ((List.range desc.length).any fun i =>
        decide (nulls.getD i ' ' = 'n')) = true := by
      rw [hNNb] at hnn
      cases hx : ((List.range desc.length).any fun i => decide (nulls.getD i ' ' = 'n'))
      · rw [hx] at hnn
        exact absurd hnn (by decide)
      · rfl
    have hbtrue : ((List.range desc.length).any fun i =>
        decide (nulls.getD i ' ' ≠ ' ')) = true := by
      rw [hasnull_eq hwf]
      exact hanyN
    rw [hbits, if_pos hbtrue, att_isnull_bitmapUpTo hi]
  have hAFfact : HeapTupleAllFixed T = true → ∀ i < desc.length,
      nulls.getD i ' ' = ' ' → (desc.getD i dummyAttr).attlen ≠ -1 := by
    intro haf i hi hni hcon
    rw [HeapTupleAllFixed_eq, hinfo, or_xmax_testBit _ _ (by omega),
      maskUpTo_testBit_one, Bool.not_eq_true'] at haf
    rw [List.any_eq_false] at haf
    have hx := haf i (List.mem_range.mpr hi)
    rw [decide_eq_true hni, decide_eq_true hcon] at hx
    exact hx (by decide)
  simp only [fastgetattr]
  rw [if_neg (by omega : ¬ attnum = 0)]
  cases hnn : HeapTupleNoNulls T with
  | false =>
      rw [if_neg (show ¬ (false = true) by decide)]
      have hbitsval := hFfact hnn (attnum - 1) han
      by_cases hnull : nulls.getD (attnum - 1) ' ' = 'n'
      · rw [hbitsval, if_pos (decide_eq_true hnull), if_pos hnull]
        exact ⟨cache, rfl, hc⟩
      · have hn' : nulls.getD (attnum - 1) ' ' = ' ' := by
          rcases (wf_at hwf han).2.1 with h' | h'
          · exact h'
          · exact absurd h' hnull
        rw [hbitsval,
          if_neg (show ¬ decide (nulls.getD (attnum - 1) ' ' = 'n') = true from
            fun hcc => hnull (of_decide_eq_true hcc))]
        obtain ⟨cache2, hres, hc2⟩ :=
          nocachegetattr_spec hwf hdata hTfact hFfact hAFfact h1 h2 hn' hc
        rw [hres, Option.map_some', if_neg hnull]
        exact ⟨cache2, rfl, hc2⟩
  | true =>
      rw [if_pos rfl]
      have hn' : nulls.getD (attnum - 1) ' ' = ' ' := hTfact hnn (attnum - 1) han
      rw [if_neg (show ¬ nulls.getD (attnum - 1) ' ' = 'n' by rw [hn']; decide)]
      by_cases hhit : cache.getD (attnum - 1) 0 > 0
      · rw [if_pos hhit,
          cacheHit_fetch hwf hdata han hn' (fun k hk => hTfact hnn k (by omega)) hc hhit,
          Option.map_some']
        exact ⟨cache, rfl, hc⟩
      · rw [if_neg hhit]
        by_cases ha0 : attnum - 1 = 0
        · have hn0 : nulls.getD 0 ' ' = ' ' := by rw [← ha0]; exact hn'
          rw [if_pos ha0, ha0, fetch_first hwf hdata (by omega) hn0, Option.map_some']
          exact ⟨cache, rfl, hc⟩
        · rw [if_neg ha0]
          obtain ⟨cache2, hres, hc2⟩ :=
            nocachegetattr_spec hwf hdata hTfact hFfact hAFfact h1 h2 hn' hc
          rw [hres, Option.map_some']
          exact ⟨cache2, rfl, hc2⟩

/-! ## `heap_modifytuple` gathering loop -/

theorem modifyGatherLoop_ok {desc : List Attr} {vals : List Datum} {nulls : List Char}
    {replValue : List Datum} {replNull : List Char} {repl : List Char}
    (hwf : wfInput desc vals nulls = true)
    (hcap : desc.length ≤ MaxHeapAttributeNumber) {T : HeapTuple}
    (hT : heap_formtuple desc vals nulls = some T) :
    ∀ (fuel attoff : Nat), attoff + fuel = desc.length →
      (∀ i, attoff ≤ i → i < desc.length →
        repl.getD i ' ' = ' ' ∨ repl.getD i ' ' = 'r') →
      ∀ (accV : List Datum) (accN : List Char) (cache : List Int),
        cacheValid desc cache = true →
        ∃ cache2,
          modifyGatherLoop T desc replValue replNull repl attoff fuel
            (accV, accN, cache) =
            some (accV ++
                (List.range' attoff fuel).map (mergedVal vals nulls replValue repl),
              accN ++ (List.range' attoff fuel).map (mergedNull nulls replNull repl),
              cache2) ∧
          cacheValid desc cache2 = true := by
  intro fuel
  induction fuel with
  | zero =>
      intro attoff _ _ accV accN cache hc
      exact ⟨cache, by simp [modifyGatherLoop], hc⟩
  | succ fuel ih =>
      intro attoff hlen hsel accV accN cache hc
      simp only [modifyGatherLoop]
      have hattoff : attoff < desc.length := by omega
      rcases hsel attoff (le_refl _) hattoff with hk | hr
      · rw [if_pos hk]
        obtain ⟨cc, hfast, hcc⟩ := fastgetattr_master hwf hcap hT
          (show 1 ≤ attoff + 1 by omega) (show attoff + 1 ≤ desc.length by omega) hc
        simp only [Nat.add_sub_cancel] at hfast
        by_cases hnl : nulls.getD attoff ' ' = 'n'
        · rw [if_pos hnl] at hfast
          rw [hfast]
          simp only [Option.some_bind, Option.getD_none, if_true]
          obtain ⟨cache2, hrun, hc2⟩ := ih (attoff + 1) (by omega)
            (fun i hi1 hi2 => hsel i (by omega) hi2)
            (accV ++ [Datum.imm 0]) (accN ++ ['n']) cc hcc
          refine ⟨cache2, ?_, hc2⟩
          rw [hrun, List.range'_succ, List.map_cons, List.map_cons]
          have hmv : mergedVal vals nulls replValue repl attoff = Datum.imm 0 := by
            unfold mergedVal
            rw [if_neg (by rw [hk]; decide), if_pos hnl]
          have hmn : mergedNull nulls replNull repl attoff = 'n' := by
            unfold mergedNull
            rw [if_neg (by rw [hk]; decide), if_pos hnl]
          rw [hmv, hmn, List.append_assoc, List.append_assoc, List.singleton_append,
            List.singleton_append]
        · rw [if_neg hnl] at hfast
          rw [hfast]
          simp only [Option.some_bind, Option.getD_some, Bool.false_eq_true, if_false]
          obtain ⟨cache2, hrun, hc2⟩ := ih (attoff + 1) (by omega)
            (fun i hi1 hi2 => hsel i (by omega) hi2)
            (accV ++ [vals.getD attoff dummyDatum]) (accN ++ [' ']) cc hcc
          refine ⟨cache2, ?_, hc2⟩
          rw [hrun, List.range'_succ, List.map_cons, List.map_cons]
          have hmv : mergedVal vals nulls replValue repl attoff =
              vals.getD attoff dummyDatum := by
            unfold mergedVal
            rw [if_neg (by rw [hk]; decide), if_neg hnl]
          have hmn : mergedNull nulls replNull repl attoff = ' ' := by
            unfold mergedNull
            rw [if_neg (by rw [hk]; decide), if_neg hnl]
          rw [hmv, hmn, List.append_assoc, List.append_assoc, List.singleton_append,
            List.singleton_append]
      · rw [if_neg (by rw [hr]; decide), if_neg (fun hcon => hcon hr)]
        obtain ⟨cache2, hrun, hc2⟩ := ih (attoff + 1) (by omega)
          (fun i hi1 hi2 => hsel i (by omega) hi2)
          (accV ++ [replValue.getD attoff dummyDatum])
          (accN ++ [replNull.getD attoff ' ']) cache hc
        refine ⟨cache2, ?_, hc2⟩
        rw [hrun, List.range'_succ, List.map_cons, List.map_cons]
        have hmv : mergedVal vals nulls replValue repl attoff =
            replValue.getD attoff dummyDatum := by
          unfold mergedVal
          rw [if_pos hr]
        have hmn : mergedNull nulls replNull repl attoff = replNull.getD attoff ' ' := by
          unfold mergedNull
          rw [if_pos hr]
        rw [hmv, hmn, List.append_assoc, List.append_assoc, List.singleton_append,
          List.singleton_append]

theorem modifyGatherLoop_bad {desc : List Attr} {vals : List Datum} {nulls : List Char}
    {replValue : List Datum} {replNull : List Char} {repl : List Char}
    (hwf : wfInput desc vals nulls = true)
    (hcap : desc.length ≤ MaxHeapAttributeNumber) {T : HeapTuple}
    (hT : heap_formtuple desc vals nulls = some T) :
    ∀ (fuel attoff : Nat), attoff + fuel = desc.length →
      ∀ i0, attoff ≤ i0 → i0 < desc.length →
        repl.getD i0 ' ' ≠ ' ' → repl.getD i0 ' ' ≠ 'r' →
        (∀ i, attoff ≤ i → i < i0 →
          repl.getD i ' ' = ' ' ∨ repl.getD i ' ' = 'r') →
      ∀ (accV : List Datum) (accN : List Char) (cache : List Int),
        cacheValid desc cache = true →
        modifyGatherLoop T desc replValue replNull repl attoff fuel
          (accV, accN, cache) = none := by
  intro fuel
  induction fuel with
  | zero =>
      intro attoff hlen i0 hi0a hi0len _ _ _ _ _ _ _
      exact absurd hi0len (by omega)
  | succ fuel ih =>
      intro attoff hlen i0 hi0a hi0len hbad1 hbad2 hprev accV accN cache hc
      simp only [modifyGatherLoop]
      by_cases he : attoff = i0
      · subst he
        rw [if_neg hbad1, if_pos hbad2]
      · rcases hprev attoff (le_refl _) (by omega) with hk | hr
        · rw [if_pos hk]
          obtain ⟨cc, hfast, hcc⟩ := fastgetattr_master hwf hcap hT
            (show 1 ≤ attoff + 1 by omega)
            (show attoff + 1 ≤ desc.length by omega) hc
          rw [hfast]
          simp only [Option.some_bind]
          exact ih (attoff + 1) (by omega) i0 (by omega) hi0len hbad1 hbad2
            (fun i hi1 hi2 => hprev i (by omega) hi2) _ _ cc hcc
        · rw [if_neg (by rw [hr]; decide), if_neg (fun hcon => hcon hr)]
          exact ih (attoff + 1) (by omega) i0 (by omega) hi0len hbad1 hbad2
            (fun i hi1 hi2 => hprev i (by omega) hi2) _ _ cache hc

/-! ## Claim theorems -/

/-- C9: `heap_modifytuple` merges per attribute — the original tuple's
decoded pair under the keep selector `' '`, the supplied replacement pair
under `'r'` — and raises a fatal error on any other selector value; the
result is built by `heap_formtuple` on the merged arrays, after which only
the original tuple's non-positional metadata (`t_oid`, `t_cmin`, `t_cmax`,
`t_xmin`, `t_xmax`) is copied forward, while `t_len`, `t_natts`, `t_hoff`
and `t_infomask` (and the bitmap and data) are the newly built tuple's. -/
theorem C9_modifytuple_selectors {desc : List Attr} {vals : List Datum}
    {nulls : List Char} {replValue : List Datum} {replNull : List Char}
    {repl : List Char} {cache : List Int}
    (hwf : wfInput desc vals nulls = true)
    (hcap : desc.length ≤ MaxHeapAttributeNumber)
    {T : HeapTuple} (hT : heap_formtuple desc vals nulls = some T)
    (hc : cacheValid desc cache = true) :
    ((∃ i, i < desc.length ∧ repl.getD i ' ' ≠ ' ' ∧ repl.getD i ' ' ≠ 'r') →
      heap_modifytuple T desc replValue replNull repl cache = none) ∧
    ((∀ i, i < desc.length → repl.getD i ' ' = ' ' ∨ repl.getD i ' ' = 'r') →
     wfInput desc ((List.range desc.length).map (mergedVal vals nulls replValue repl))
       ((List.range desc.length).map (mergedNull nulls replNull repl)) = true →
     ∃ N M cache2,
       heap_formtuple desc
         ((List.range desc.length).map (mergedVal vals nulls replValue repl))
         ((List.range desc.length).map (mergedNull nulls replNull repl)) = some N ∧
       heap_modifytuple T desc replValue replNull repl cache = some (M, cache2) ∧
       M.t_len = N.t_len ∧ M.t_natts = N.t_natts ∧ M.t_hoff = N.t_hoff ∧
       M.t_infomask = N.t_infomask ∧ M.t_bits = N.t_bits ∧ M.data = N.data ∧
       M.t_oid = T.t_oid ∧ M.t_cmin = T.t_cmin ∧ M.t_cmax = T.t_cmax ∧
       M.t_xmin = T.t_xmin ∧ M.t_xmax = T.t_xmax) := by
  constructor
  · rintro ⟨i, hi, hb1, hb2⟩
    have hex : ∃ k, k < desc.length ∧ repl.getD k ' ' ≠ ' ' ∧ repl.getD k ' ' ≠ 'r' :=
      ⟨i, hi, hb1, hb2⟩
    obtain ⟨hl, hx1, hx2⟩ := Nat.find_spec hex
    have hprev : ∀ m, 0 ≤ m → m < Nat.find hex →
        repl.getD m ' ' = ' ' ∨ repl.getD m ' ' = 'r' := by
      intro m _ hm
      have hnm := Nat.find_min hex hm
      by_cases h1 : repl.getD m ' ' = ' '
      · exact Or.inl h1
      · by_cases h2 : repl.getD m ' ' = 'r'
        · exact Or.inr h2
        · exact absurd ⟨by omega, h1, h2⟩ hnm
    unfold heap_modifytuple
    rw [modifyGatherLoop_bad hwf hcap hT desc.length 0 (by omega) (Nat.find hex)
      (by omega) hl hx1 hx2 hprev [] [] cache hc]
    rfl
  · intro hsel hwf2
    obtain ⟨cache2, hgather, hc2⟩ := modifyGatherLoop_ok hwf hcap hT desc.length 0
      (by omega) (fun i _ hi => hsel i hi) [] [] cache hc
    rw [List.nil_append, List.nil_append, ← List.range_eq_range'] at hgather
    obtain ⟨N, hN, -, -, -, -⟩ := heap_formtuple_fields hwf2 hcap
    have hmod : heap_modifytuple T desc replValue replNull repl cache =
        some ({ N with
                t_oid := T.t_oid
                t_cmin := T.t_cmin
                t_cmax := T.t_cmax
                t_xmin := T.t_xmin
                t_xmax := T.t_xmax }, cache2) := by
      unfold heap_modifytuple
      rw [hgather]
      simp only [Option.some_bind]
      rw [hN, Option.map_some']
    exact ⟨N, _, cache2, hN, hmod, rfl, rfl, rfl, rfl, rfl, rfl, rfl, rfl, rfl,
      rfl, rfl⟩

/-- C9 witness: a 2-attribute tuple with one kept and one replaced value. -/
theorem C9_modifytuple_selectors_witness :
    ∃ N M cache2,
      heap_formtuple [⟨1,'c',true⟩, ⟨1,'c',true⟩]
        ((List.range 2).map (mergedVal [Datum.imm 1, Datum.imm 2] [' ', ' ']
          [Datum.imm 0, Datum.imm 9] [' ', 'r']))
        ((List.range 2).map (mergedNull [' ', ' '] [' ', ' '] [' ', 'r'])) = some N ∧
      heap_modifytuple ⟨42,0,0,0,0,0,0,2,2048,40,[],[1,2]⟩ [⟨1,'c',true⟩, ⟨1,'c',true⟩]
        [Datum.imm 0, Datum.imm 9] [' ', ' '] [' ', 'r'] [-1,-1] = some (M, cache2) ∧
      M.t_len = N.t_len ∧ M.t_natts = N.t_natts ∧ M.t_hoff = N.t_hoff ∧
      M.t_infomask = N.t_infomask ∧ M.t_bits = N.t_bits ∧ M.data = N.data ∧
      M.t_oid = 0 ∧ M.t_cmin = 0 ∧ M.t_cmax = 0 ∧ M.t_xmin = 0 ∧ M.t_xmax = 0 :=
  (C9_modifytuple_selectors (by decide) (by decide)
    (T := ⟨42,0,0,0,0,0,0,2,2048,40,[],[1,2]⟩) (by decide) (by decide)).2
    (by decide) (by decide)

/-- C1: the round trip fails in the index family.  On a 4-attribute all-`char`
schema with attribute 2 null, `heap_formtuple`/`nocachegetattr` reproduce the
supplied value of attribute 4 (`imm 5`), but `index_formtuple`/
`nocache_index_getattr` return `imm 0`: the preceding-null byte scan's mask
`(finalbit << 1) - 1` misses the null at bit 1, so the fast path decodes at
the dense no-null offset. -/
theorem C1_roundtrip_bug :
    wfInput [⟨1,'c',true⟩, ⟨1,'c',true⟩, ⟨1,'c',true⟩, ⟨1,'c',true⟩]
      [Datum.imm 1, Datum.imm 2, Datum.imm 3, Datum.imm 5] [' ', 'n', ' ', ' '] = true ∧
    ((heap_formtuple [⟨1,'c',true⟩, ⟨1,'c',true⟩, ⟨1,'c',true⟩, ⟨1,'c',true⟩]
        [Datum.imm 1, Datum.imm 2, Datum.imm 3, Datum.imm 5] [' ', 'n', ' ', ' ']).bind
      fun H => (nocachegetattr H 4
        [⟨1,'c',true⟩, ⟨1,'c',true⟩, ⟨1,'c',true⟩, ⟨1,'c',true⟩]
        [-1, -1, -1, -1]).map Prod.fst) = some (Datum.imm 5) ∧
    ((index_formtuple [⟨1,'c',true⟩, ⟨1,'c',true⟩, ⟨1,'c',true⟩, ⟨1,'c',true⟩]
        [Datum.imm 1, Datum.imm 2, Datum.imm 3, Datum.imm 5] [' ', 'n', ' ', ' ']).bind
      fun T => (nocache_index_getattr T 4
        [⟨1,'c',true⟩, ⟨1,'c',true⟩, ⟨1,'c',true⟩, ⟨1,'c',true⟩]
        [-1, -1, -1, -1]).map Prod.fst) = some (Datum.imm 0) ∧
    Datum.imm 0 ≠ Datum.imm 5 := by decide

/-- C2: the size calculator and the serializer agree byte for byte — under
well-formed inputs (and a bitmap pointer exactly when the builders pass
one), `ComputeDataSize` returns precisely the length of the data region
`DataFill` produces. -/
theorem C2_compute_matches_fill {desc : List Attr} {vals : List Datum}
    {nulls : List Char} (hwf : wfInput desc vals nulls = true) (hasBit : Bool)
    (hbit : hasBit = true ∨ ∀ i < desc.length, nulls.getD i ' ' = ' ') :
    ∃ dbm, DataFill hasBit desc vals nulls = some dbm ∧
      ComputeDataSize desc vals nulls = some dbm.1.length := by
  rw [DataFill_spec hwf hbit, ComputeDataSize_spec hwf]
  exact ⟨_, rfl, rfl⟩

/-- C2 witness: an `int32` followed by a varlena. -/
theorem C2_compute_matches_fill_witness :
    wfInput [⟨4,'i',true⟩, ⟨-1,'i',false⟩]
      [Datum.imm 7, Datum.byref [6,0,0,0,97,98]] [' ', ' '] = true ∧
    ∃ dbm, DataFill false [⟨4,'i',true⟩, ⟨-1,'i',false⟩]
        [Datum.imm 7, Datum.byref [6,0,0,0,97,98]] [' ', ' '] = some dbm ∧
      ComputeDataSize [⟨4,'i',true⟩, ⟨-1,'i',false⟩]
        [Datum.imm 7, Datum.byref [6,0,0,0,97,98]] [' ', ' '] = some dbm.1.length :=
  ⟨by decide, C2_compute_matches_fill (by decide) false (Or.inr (by decide))⟩

/-- C3: cache reads are not transparent in the index accessor.  On a no-null
schema `char, short, varlena, int32`, reading attribute 4 first populates
the cache with attribute 2's pre-alignment offset 1; a subsequent read of
attribute 2 through that cache returns `imm 512` where a fresh decode
returns the supplied `imm 258`. -/
theorem C3_cache_transparency_bug :
    wfInput [⟨1,'c',true⟩, ⟨2,'s',true⟩, ⟨-1,'i',false⟩, ⟨4,'i',true⟩]
      [Datum.imm 7, Datum.imm 258, Datum.byref [6,0,0,0,99,88], Datum.imm 4242]
      [' ', ' ', ' ', ' '] = true ∧
    ((index_formtuple [⟨1,'c',true⟩, ⟨2,'s',true⟩, ⟨-1,'i',false⟩, ⟨4,'i',true⟩]
        [Datum.imm 7, Datum.imm 258, Datum.byref [6,0,0,0,99,88], Datum.imm 4242]
        [' ', ' ', ' ', ' ']).bind fun T =>
      (nocache_index_getattr T 4
        [⟨1,'c',true⟩, ⟨2,'s',true⟩, ⟨-1,'i',false⟩, ⟨4,'i',true⟩]
        [-1, -1, -1, -1]).bind fun r1 =>
      (nocache_index_getattr T 2
        [⟨1,'c',true⟩, ⟨2,'s',true⟩, ⟨-1,'i',false⟩, ⟨4,'i',true⟩]
        r1.2).map Prod.fst) = some (Datum.imm 512) ∧
    ((index_formtuple [⟨1,'c',true⟩, ⟨2,'s',true⟩, ⟨-1,'i',false⟩, ⟨4,'i',true⟩]
        [Datum.imm 7, Datum.imm 258, Datum.byref [6,0,0,0,99,88], Datum.imm 4242]
        [' ', ' ', ' ', ' ']).bind fun T =>
      (nocache_index_getattr T 2
        [⟨1,'c',true⟩, ⟨2,'s',true⟩, ⟨-1,'i',false⟩, ⟨4,'i',true⟩]
        [-1, -1, -1, -1]).map Prod.fst) = some (Datum.imm 258) ∧
    Datum.imm 512 ≠ Datum.imm 258 := by decide

/-- C4: the index careful walk stores a cached offset that is NOT the
attribute's post-alignment start.  On schema `char, short, varlena, int32`,
reading attribute 4 leaves the index cache at `[0, 1, 4, -1]` — attribute
2's entry holds the running cursor 1 before its 2-byte alignment — while
the heap walk stores the aligned start 2 (`[0, 2, 4, -1]`), and 2 is
attribute 2's aligned start offset in both the instance and the
schema-invariant layout. -/
theorem C4_cache_prealignment_bug :
    ((index_formtuple [⟨1,'c',true⟩, ⟨2,'s',true⟩, ⟨-1,'i',false⟩, ⟨4,'i',true⟩]
        [Datum.imm 9, Datum.imm 300, Datum.byref [5,0,0,0,77], Datum.imm 1234]
        [' ', ' ', ' ', ' ']).bind fun T =>
      (nocache_index_getattr T 4
        [⟨1,'c',true⟩, ⟨2,'s',true⟩, ⟨-1,'i',false⟩, ⟨4,'i',true⟩]
        [-1, -1, -1, -1]).map Prod.snd) = some [0, 1, 4, -1] ∧
    ((heap_formtuple [⟨1,'c',true⟩, ⟨2,'s',true⟩, ⟨-1,'i',false⟩, ⟨4,'i',true⟩]
        [Datum.imm 9, Datum.imm 300, Datum.byref [5,0,0,0,77], Datum.imm 1234]
        [' ', ' ', ' ', ' ']).bind fun H =>
      (nocachegetattr H 4
        [⟨1,'c',true⟩, ⟨2,'s',true⟩, ⟨-1,'i',false⟩, ⟨4,'i',true⟩]
        [-1, -1, -1, -1]).map Prod.snd) = some [0, 2, 4, -1] ∧
    instOff [⟨1,'c',true⟩, ⟨2,'s',true⟩, ⟨-1,'i',false⟩, ⟨4,'i',true⟩]
      [Datum.imm 9, Datum.imm 300, Datum.byref [5,0,0,0,77], Datum.imm 1234]
      [' ', ' ', ' ', ' '] 1 = 2 ∧
    fixedOff [⟨1,'c',true⟩, ⟨2,'s',true⟩, ⟨-1,'i',false⟩, ⟨4,'i',true⟩] 1 = 2 ∧
    (1 : Int) ≠ 2 := by decide

/-- C5: the two accessors do not produce identical decode semantics.  On a
5-attribute all-`char` schema with attribute 4 null, decoding attribute 5
from the heap tuple yields the supplied `imm 9`, from the index tuple built
from the same inputs `imm 0` (the byte scan's mask `(4 << 1) - 1 = 7`
misses nothing below bit 3 — but `finalbit = 4`'s mask `7` misses bit 3
itself, where the null sits). -/
theorem C5_decode_divergence_bug :
    wfInput [⟨1,'c',true⟩, ⟨1,'c',true⟩, ⟨1,'c',true⟩, ⟨1,'c',true⟩, ⟨1,'c',true⟩]
      [Datum.imm 1, Datum.imm 2, Datum.imm 3, Datum.imm 4, Datum.imm 9]
      [' ', ' ', ' ', 'n', ' '] = true ∧
    ((heap_formtuple
        [⟨1,'c',true⟩, ⟨1,'c',true⟩, ⟨1,'c',true⟩, ⟨1,'c',true⟩, ⟨1,'c',true⟩]
        [Datum.imm 1, Datum.imm 2, Datum.imm 3, Datum.imm 4, Datum.imm 9]
        [' ', ' ', ' ', 'n', ' ']).bind fun H =>
      (nocachegetattr H 5
        [⟨1,'c',true⟩, ⟨1,'c',true⟩, ⟨1,'c',true⟩, ⟨1,'c',true⟩, ⟨1,'c',true⟩]
        [-1, -1, -1, -1, -1]).map Prod.fst) = some (Datum.imm 9) ∧
    ((index_formtuple
        [⟨1,'c',true⟩, ⟨1,'c',true⟩, ⟨1,'c',true⟩, ⟨1,'c',true⟩, ⟨1,'c',true⟩]
        [Datum.imm 1, Datum.imm 2, Datum.imm 3, Datum.imm 4, Datum.imm 9]
        [' ', ' ', ' ', 'n', ' ']).bind fun T =>
      (nocache_index_getattr T 5
        [⟨1,'c',true⟩, ⟨1,'c',true⟩, ⟨1,'c',true⟩, ⟨1,'c',true⟩, ⟨1,'c',true⟩]
        [-1, -1, -1, -1, -1]).map Prod.fst) = some (Datum.imm 0) ∧
    Datum.imm 9 ≠ Datum.imm 0 := by decide

/-- C6: the null bitmap convention.  When some attribute is null, the built
tuple's bitmap has `ceil(natts / 8)` bytes, bit `i` is set exactly when
attribute `i` is not null (`att_isnull i` answers the null flag), and the
whole-tuple no-nulls flag is clear; when no attribute is null, no bitmap is
written, the no-nulls flag is set, and the reader (`heap_attisnull`) checks
it first, reporting every in-range attribute not-null without touching
bitmap storage. -/
theorem C6_null_bitmap {desc : List Attr} {vals : List Datum} {nulls : List Char}
    (hwf : wfInput desc vals nulls = true)
    (hcap : desc.length ≤ MaxHeapAttributeNumber)
    {T : HeapTuple} (hT : heap_formtuple desc vals nulls = some T) :
    (((List.range desc.length).any fun i => decide (nulls.getD i ' ' ≠ ' ')) = true →
      T.t_bits.length = BITMAPLEN desc.length ∧
      HeapTupleNoNulls T = false ∧
      ∀ i < desc.length, att_isnull i T.t_bits = decide (nulls.getD i ' ' = 'n')) ∧
    (((List.range desc.length).any fun i => decide (nulls.getD i ' ' ≠ ' ')) = false →
      T.t_bits = [] ∧ HeapTupleNoNulls T = true ∧
      ∀ a : Int, 0 < a → a ≤ (desc.length : Int) → heap_attisnull T a = some false) := by
  obtain ⟨T', hT', hdata, hnatts, hinfo, hbits⟩ := heap_formtuple_fields hwf hcap
  rw [hT] at hT'
  obtain rfl := Option.some.inj hT'
  constructor
  · intro hb
    refine ⟨?_, ?_, ?_⟩
    · rw [hbits, if_pos hb, bitmapUpTo_length]
      rfl
    · have hanyN : ((List.range desc.length).any fun i =>
          decide (nulls.getD i ' ' = 'n')) = true := by
        rw [← hasnull_eq hwf]
        exact hb
      rw [HeapTupleNoNulls_eq, hinfo, or_xmax_testBit _ _ (by omega),
        maskUpTo_testBit_zero, hb, hanyN]
      rfl
    · intro i hi
      rw [hbits, if_pos hb, att_isnull_bitmapUpTo hi]
  · intro hb
    have hbitsmpty : T.t_bits = [] := by
      rw [hbits, if_neg (by rw [hb]; decide)]
    have hNN : HeapTupleNoNulls T = true := by
      rw [HeapTupleNoNulls_eq, hinfo, or_xmax_testBit _ _ (by omega),
        maskUpTo_testBit_zero, hb, Bool.false_and]
      rfl
    refine ⟨hbitsmpty, hNN, ?_⟩
    intro a ha0 halen
    unfold heap_attisnull
    rw [if_neg (by rw [hnatts]; omega), if_pos hNN]

/-- C6 witness: `int32, char` with the second attribute null, and the same
schema with no nulls. -/
theorem C6_null_bitmap_witness :
    (∀ i < 2, att_isnull i [1] = decide (([' ', 'n'] : List Char).getD i ' ' = 'n')) ∧
    heap_attisnull ⟨45,0,0,0,0,0,0,2,2048,40,[],[7,0,0,0,3]⟩ 2 = some false := by
  constructor
  · have h := (@C6_null_bitmap [⟨4,'i',true⟩, ⟨1,'c',true⟩]
      [Datum.imm 7, Datum.imm 3] [' ', 'n'] (by decide) (by decide)
      ⟨52,0,0,0,0,0,0,2,2049,48,[1],[7,0,0,0]⟩ (by decide)).1 (by decide)
    exact h.2.2
  · have h := (@C6_null_bitmap [⟨4,'i',true⟩, ⟨1,'c',true⟩]
      [Datum.imm 7, Datum.imm 3] [' ', ' '] (by decide) (by decide)
      ⟨45,0,0,0,0,0,0,2,2048,40,[],[7,0,0,0,3]⟩ (by decide)).2 (by decide)
    exact h.2.2 2 (by decide) (by decide)

/-- C7: a null attribute contributes zero bytes and is skipped entirely:
the size-calculator loop passes it leaving the cursor untouched (no payload,
no alignment padding of its own), the serializer loop writes no data bytes
for it (only the bitmap/infomask bookkeeping advances), the accessor's
careful walk passes it advancing the running offset by zero, and the layout
cursor after it equals the cursor before it, so every later attribute's
offset is computed as if it did not exist. -/
theorem C7_null_contributes_nothing {desc : List Attr} {vals : List Datum}
    {nulls : List Char} {j : Nat} (hn : nulls.getD j ' ' = 'n') :
    (∀ (fuel off : Nat), computeDataSizeLoop desc vals nulls j (fuel + 1) off =
      computeDataSizeLoop desc vals nulls (j + 1) fuel off) ∧
    (∀ (fuel : Nat) (data bits : List Nat) (bitmask mask : Nat),
      dataFillLoop true desc vals nulls j (fuel + 1) (data, bits, bitmask, mask) =
      dataFillLoop true desc vals nulls (j + 1) fuel
        (data, (bitStep bits bitmask true).1, (bitStep bits bitmask true).2,
          mask ||| 1)) ∧
    (∀ (bits data : List Nat) (st : Int × Bool × List Int),
      att_isnull j bits = true →
      heapSlowStep false bits desc data j st = some (st.1, false, st.2.2)) ∧
    instEnd desc vals nulls (j + 1) = instEnd desc vals nulls j := by
  have hne : nulls.getD j ' ' ≠ ' ' := by rw [hn]; decide
  refine ⟨?_, ?_, ?_, ?_⟩
  · intro fuel off
    simp only [computeDataSizeLoop]
    rw [if_pos hne]
  · intro fuel data bits bitmask mask
    simp only [dataFillLoop]
    rw [if_pos True.intro, if_pos hn, decide_eq_true hn]
  · intro bits data st hnull
    simp only [heapSlowStep]
    rw [if_pos (And.intro (show ¬ (false = true) by decide) hnull)]
  · exact instEnd_succ_null hne

/-- C7 witness: attribute 2 of an `int32, int32, char` schema is null. -/
theorem C7_null_contributes_nothing_witness :
    computeDataSizeLoop [⟨4,'i',true⟩, ⟨4,'i',true⟩, ⟨1,'c',true⟩]
      [Datum.imm 1, Datum.imm 2, Datum.imm 3] [' ', 'n', ' '] 1 2 4 =
    computeDataSizeLoop [⟨4,'i',true⟩, ⟨4,'i',true⟩, ⟨1,'c',true⟩]
      [Datum.imm 1, Datum.imm 2, Datum.imm 3] [' ', 'n', ' '] 2 1 4 ∧
    heapSlowStep false [5] [⟨4,'i',true⟩, ⟨4,'i',true⟩, ⟨1,'c',true⟩] [1,0,0,0,3] 1
      (4, true, [0, -1, -1]) = some (4, false, [0, -1, -1]) :=
  ⟨(@C7_null_contributes_nothing [⟨4,'i',true⟩, ⟨4,'i',true⟩, ⟨1,'c',true⟩]
      [Datum.imm 1, Datum.imm 2, Datum.imm 3] [' ', 'n', ' '] 1 (by decide)).1 1 4,
   (@C7_null_contributes_nothing [⟨4,'i',true⟩, ⟨4,'i',true⟩, ⟨1,'c',true⟩]
      [Datum.imm 1, Datum.imm 2, Datum.imm 3] [' ', 'n', ' '] 1 (by decide)).2.2.1
     [5] [1,0,0,0,3] (4, true, [0, -1, -1]) (by decide)⟩

/-- C8 (corrected): an unsupported length class is indeed a fatal error —
the alignment switch shared by all the walking loops `elog`s on it, and
whole accessor runs over such a schema fail — but an attribute number
beyond the tuple's `t_natts` is NOT an error: `heap_attisnull` reports it
as null. -/
theorem C8_schema_errors :
    (∀ a : Attr,
      ¬ (a.attlen = -1 ∨ a.attlen = 1 ∨ a.attlen = 2 ∨ a.attlen = 4 ∨ a.attlen > 4) →
      ∀ off, nocacheAlignSwitch a off = none) ∧
    (∀ (tup : HeapTuple) (attnum : Int), (tup.t_natts : Int) < attnum →
      heap_attisnull tup attnum = some true) ∧
    nocachegetattr ⟨44,0,0,0,0,0,0,2,2048,40,[],[1,2,3,4]⟩ 2
      [⟨1,'c',true⟩, ⟨3,'i',false⟩] [-1, -1] = none ∧
    nocache_index_getattr ⟨16,[],[1,2,3,4,0,0,0,0]⟩ 2
      [⟨1,'c',true⟩, ⟨3,'i',false⟩] [-1, -1] = none := by
  refine ⟨?_, ?_, by decide, by decide⟩
  · intro a h off
    push_neg at h
    obtain ⟨h1, h2, h3, h4, h5⟩ := h
    unfold nocacheAlignSwitch
    rw [if_neg h1, if_neg h2, if_neg h3, if_neg h4, if_pos (by omega)]
  · intro tup attnum h
    unfold heap_attisnull
    rw [if_pos (by omega)]

/-- C8 counterexample to the claim as stated: requesting attribute 5 of a
2-attribute tuple returns a null result (`some true`) instead of raising a
fatal error. -/
theorem C8_beyond_natts_counterexample :
    heap_attisnull ⟨44,0,0,0,0,0,0,2,2048,40,[],[1,2,3,4]⟩ 5 = some true := by decide

/-- C8 witness: length class 3 is rejected; attribute 7 of a 2-attribute
tuple reads as null. -/
theorem C8_schema_errors_witness :
    nocacheAlignSwitch ⟨3,'i',false⟩ 0 = none ∧
    heap_attisnull ⟨44,0,0,0,0,0,0,2,2048,40,[],[1,2,3,4]⟩ 7 = some true :=
  ⟨C8_schema_errors.1 ⟨3,'i',false⟩ (by decide) 0,
   C8_schema_errors.2.1 ⟨44,0,0,0,0,0,0,2,2048,40,[],[1,2,3,4]⟩ 7 (by decide)⟩

/-- C10: `heap_copytuple` on an invalid (null) pointer returns `NULL`
without failing; a stored length above `MAXTUPLEN` is a fatal error;
otherwise the result is an independent buffer duplicating exactly `t_len`
bytes of the original. -/
theorem C10_copytuple_edges (t : RawHeapTuple) :
    heap_copytuple none = some none ∧
    (t.t_len > MAXTUPLEN → heap_copytuple (some t) = none) ∧
    (¬ t.t_len > MAXTUPLEN →
      heap_copytuple (some t) =
        some (some { t_len := t.t_len, bytes := t.bytes.take t.t_len }) ∧
      (t.t_len ≤ t.bytes.length → (t.bytes.take t.t_len).length = t.t_len)) := by
  refine ⟨rfl, ?_, ?_⟩
  · intro h
    simp only [heap_copytuple]
    rw [if_pos h]
  · intro h
    refine ⟨?_, ?_⟩
    · simp only [heap_copytuple]
      rw [if_neg h]
    · intro hlen
      rw [List.length_take]
      omega

/-- C10 witness: a 3-byte copy and an oversized tuple. -/
theorem C10_copytuple_edges_witness :
    heap_copytuple (some ⟨3, [9,8,7,6]⟩) =
      some (some ⟨3, ([9,8,7,6] : List Nat).take 3⟩) ∧
    heap_copytuple (some ⟨9000, []⟩) = none :=
  ⟨((C10_copytuple_edges ⟨3, [9,8,7,6]⟩).2.2 (by decide)).1,
   (C10_copytuple_edges ⟨9000, []⟩).2.1 (by decide)⟩

end PgTuple
